import Mathlib

/-!
Verification model of the bee-bytes vector runtime and swarm.

The Rust sources are shallowly embedded:
* `k.rs`   — the `K` tagged value (type tag, count, payload) becomes the
  nested inductive `K`; Rust `i64` is modelled as `Int`, Rust `f64` as `Rat`
  (every claim under study compares identically ordered sequences of
  floating-point operations, so an exact field is a faithful carrier).
* `va.rs`  — `scalar_init`, `scalar_op_f64`/`scalar_op_i64`, `dyadic_scalar`,
  `times`, `plus`, `minus` and `dot`.  Rust panics become `Except KErr`
  errors; slice indexing `a[i]` becomes `idx`, which errors out of bounds
  exactly where the Rust code would panic.
* `seeder.rs`/`piece.rs` — pieces, dedup by content hash, contiguous
  sharding, the per-shard scoring scan with the `0.001` relevance floor,
  and the gather/sort/truncate step of `Swarm::query`.  Rust strings are
  modelled as `List Char`; the stable `sort_by` on descending score is
  modelled by `List.insertionSort` (also stable) with the same comparison.
-/

/-- Error values corresponding to the distinct panic sites of the Rust code. -/
inductive KErr : Type where
  /-- "length error: atoms mismatch" in `scalar_init`. -/
  | atomMismatch
  /-- "length error: lists mismatch" in `scalar_init`. -/
  | listMismatch
  /-- "length error: incompatible shapes" in `scalar_init`. -/
  | shapeError
  /-- the `assert!(zt.abs() <= 2)` in `scalar_init`. -/
  | typeAssert
  /-- slice index out of bounds (Rust `a[i]` panic). -/
  | indexOOB
  /-- `kf_data` / `ki_data` / `kk_data` called on the wrong payload variant. -/
  | dataMismatch
  /-- "length mismatch in recursion" in `dyadic_scalar`'s list branch. -/
  | recLenMismatch
  /-- "recursion unreachable state" in `dyadic_scalar`'s list branch. -/
  | recUnreachable
  /-- "type error: unsupported types" in `dyadic_scalar` / `_dot`. -/
  | typeError
  /-- "dot: cannot sum general list" in `dot`'s list fallback. -/
  | sumList
deriving DecidableEq, Repr

/-- The K object of `k.rs`: type tag `t`, element count `n`, and a payload
that is one of integer data, float data, or a general list of K objects.
The Rust `struct K { t, n, data: KData }` with `enum KData` is flattened
into one inductive with three constructors, one per payload variant. -/
inductive K : Type where
  /-- payload `KData::Ints` -/
  | ints   (t n : Int) (v : List Int)
  /-- payload `KData::Floats` -/
  | floats (t n : Int) (v : List Rat)
  /-- payload `KData::List` -/
  | klist  (t n : Int) (v : List K)
deriving Repr

namespace K

/-- The `t` field (type tag). -/
def t : K → Int
  | .ints t _ _ => t
  | .floats t _ _ => t
  | .klist t _ _ => t

/-- The `n` field (element count). -/
def n : K → Int
  | .ints _ n _ => n
  | .floats _ n _ => n
  | .klist _ n _ => n

/-- `K::from_ints`: integer array, tag `1`. -/
def from_ints (v : List Int) : K := .ints 1 (v.length : Int) v

/-- `K::from_floats`: float array, tag `2`. -/
def from_floats (v : List Rat) : K := .floats 2 (v.length : Int) v

/-- `K::ki`: integer atom, tag `-1`, count `1`. -/
def ki (x : Int) : K := .ints (-1) 1 [x]

/-- `K::kf`: float atom, tag `-2`, count `1`. -/
def kf (x : Rat) : K := .floats (-2) 1 [x]

/-- `K::from_list`: general list, tag `0`. -/
def from_list (v : List K) : K := .klist 0 (v.length : Int) v

/-- `K::i2f`: `x as f64`, the int-to-float conversion. -/
def i2f (x : Int) : Rat := (x : Rat)

/-- `K::kf_data`, panicking (erroring) on the wrong payload variant. -/
def kf_data : K → Except KErr (List Rat)
  | .floats _ _ v => .ok v
  | _ => .error .dataMismatch

/-- `K::ki_data`, panicking (erroring) on the wrong payload variant. -/
def ki_data : K → Except KErr (List Int)
  | .ints _ _ v => .ok v
  | _ => .error .dataMismatch

end K

mutual
/-- Well-formedness of a `K` value, following the spec's data-model
invariants: the payload variant matches `|t|` (1 integers, 2 floats,
0 list), `n` equals the payload length, and a negative tag (atom)
forces `n = 1`; list elements are recursively well-formed. -/
def wf : K → Bool
  | K.ints t n v => (t = 1 || t = -1) && n = (v.length : Int) && (0 < t || n = 1)
  | K.floats t n v => (t = 2 || t = -2) && n = (v.length : Int) && (0 < t || n = 1)
  | K.klist t n v => t = 0 && n = (v.length : Int) && wfList v

/-- All members of a list of `K` values are well-formed. -/
def wfList : List K → Bool
  | [] => true
  | x :: xs => wf x && wfList xs
end

/-- Rust slice indexing `v[i]`: the value at `i`, or the out-of-bounds panic. -/
def idx {α : Type} (v : List α) (i : Nat) : Except KErr α :=
  match v.get? i with
  | some x => .ok x
  | none => .error .indexOOB

/-- Error-propagating map, modelling a Rust loop that pushes one result
per iteration and panics out of the whole call on the first failure. -/
def mapME {α β : Type} (f : α → Except KErr β) : List α → Except KErr (List β)
  | [] => .ok []
  | x :: xs => do
    let y ← f x
    let ys ← mapME f xs
    .ok (y :: ys)

/-- Error-propagating left fold, modelling a Rust accumulation loop. -/
def foldlME {γ α : Type} (step : γ → α → Except KErr γ) : γ → List α → Except KErr γ
  | acc, [] => .ok acc
  | acc, x :: xs => do
    let acc' ← step acc x
    foldlME step acc' xs

/-- `sumf n f` is the left-to-right accumulation `acc := acc + f i` for
`i = 0, …, n-1` starting from `0` — the order the Rust loops use. -/
def sumf {γ : Type} [AddZeroClass γ] (n : Nat) (f : Nat → γ) : γ :=
  (List.range n).foldl (fun acc i => acc + f i) 0

/-- Result record of `scalar_init` (`struct ScalarInit` in `va.rs`).
`at` is a Lean keyword, hence the field name `at'`. -/
structure ScalarInit where
  at' : Int
  an : Int
  bt : Int
  bn : Int
  zt : Int
  zn : Int
deriving DecidableEq, Repr

/-- The output-type computation of `scalar_init`: `zt` starts as
`max(|at|,|bt|)`, is made positive for vector results (`zn > 1`), negative
only for atom×atom, and forced to `0` when either operand is a list. -/
def ztOf (at' bt an bn : Int) : Int :=
  let typ := max |at'| |bt|
  let zn := max an bn
  let zt1 := if 1 < zn then |typ| else if at' < 0 ∧ bt < 0 then -|typ| else |typ|
  if at' = 0 ∨ bt = 0 then 0 else zt1

/-- `scalar_init` from `va.rs`: computes output type `zt` and length `zn`
for a dyadic scalar operation, with the three length checks and the final
type assertion, each panic becoming an error. -/
def scalar_init (a b : K) : Except KErr ScalarInit :=
  let at' := a.t
  let an := a.n
  let bt := b.t
  let bn := b.n
  if at' < 0 ∧ bt < 0 ∧ an ≠ bn then .error .atomMismatch
  else if at' = 0 ∧ bt = 0 ∧ an ≠ bn then .error .listMismatch
  else if an ≠ bn ∧ an ≠ 1 ∧ bn ≠ 1 then .error .shapeError
  else
    let zn := max an bn
    let zt := ztOf at' bt an bn
    if 2 < |zt| then .error .typeAssert
    else .ok ⟨at', an, bt, bn, zt, zn⟩

/-- `scalar_op_f64`/`scalar_op_i64` from `va.rs`, generic in the element
type: the three broadcasting loops (equal counts / `a` singleton / `b`
singleton), writing `zn` outputs. -/
def scalar_op {α : Type} (a b : List α) (an bn zn : Int) (op : α → α → α) :
    Except KErr (List α) :=
  let znn := zn.toNat
  if an = bn then
    mapME (fun i => do
      let x ← idx a i
      let y ← idx b i
      .ok (op x y)) (List.range znn)
  else if an = 1 then do
    let a0 ← idx a 0
    mapME (fun i => do
      let y ← idx b i
      .ok (op a0 y)) (List.range znn)
  else do
    let b0 ← idx b 0
    mapME (fun i => do
      let x ← idx a i
      .ok (op x b0)) (List.range znn)

mutual
/-- `dyadic_scalar` from `va.rs`: `scalar_init`, then dispatch on the
absolute type pair — float×float, float×int, int×float, int×int — and
otherwise the general-list recursion with its guarded match arms. -/
def dyadic_scalar (op_ii : Int → Int → Int) (op_ff : Rat → Rat → Rat)
    (op_fi : Rat → Int → Rat) (op_if : Int → Rat → Rat) (a b : K) :
    Except KErr K := do
  let s ← scalar_init a b
  let abs_at := |s.at'|
  let abs_bt := |s.bt|
  if abs_at = 2 ∧ abs_bt = 2 then do
    let af ← a.kf_data
    let bf ← b.kf_data
    let zf ← scalar_op af bf s.an s.bn s.zn op_ff
    .ok (K.floats s.zt s.zn zf)
  else if abs_at = 2 ∧ abs_bt = 1 then do
    let af ← a.kf_data
    let bi ← b.ki_data
    let zf ← scalar_op af (bi.map K.i2f) s.an s.bn s.zn op_ff
    .ok (K.floats s.zt s.zn zf)
  else if abs_at = 1 ∧ abs_bt = 2 then do
    let ai ← a.ki_data
    let bf ← b.kf_data
    let zf ← scalar_op (ai.map K.i2f) bf s.an s.bn s.zn op_ff
    .ok (K.floats s.zt s.zn zf)
  else if abs_at = 1 ∧ abs_bt = 1 then do
    let ai ← a.ki_data
    let bi ← b.ki_data
    let zi ← scalar_op ai bi s.an s.bn s.zn op_ii
    .ok (K.ints s.zt s.zn zi)
  else if s.at' = 0 ∨ s.bt = 0 then
    dyadic_list op_ii op_ff op_fi op_if a b s
  else .error .typeError
termination_by (sizeOf a + sizeOf b, 1)

/-- The general-list branch of `dyadic_scalar`: the guarded match arms for
list-against-scalar broadcasting, list-against-list pairwise recursion, and
the unreachable-state panic. -/
def dyadic_list (op_ii : Int → Int → Int) (op_ff : Rat → Rat → Rat)
    (op_fi : Rat → Int → Rat) (op_if : Int → Rat → Rat) (a b : K)
    (s : ScalarInit) : Except KErr K :=
  match a, b with
  | K.klist ta na la, K.klist tb nb lb =>
    if s.at' = 0 ∧ s.bt ≠ 0 then do
      let zs ← dyadicMapLeft op_ii op_ff op_fi op_if la (K.klist tb nb lb)
      .ok (K.from_list zs)
    else if s.at' ≠ 0 ∧ s.bt = 0 then do
      let zs ← dyadicMapRight op_ii op_ff op_fi op_if (K.klist ta na la) lb
      .ok (K.from_list zs)
    else if la.length ≠ lb.length then .error .recLenMismatch
    else do
      let zs ← dyadicZip op_ii op_ff op_fi op_if la lb
      .ok (K.from_list zs)
  | K.klist _ _ la, bb =>
    if s.at' = 0 ∧ s.bt ≠ 0 then do
      let zs ← dyadicMapLeft op_ii op_ff op_fi op_if la bb
      .ok (K.from_list zs)
    else .error .recUnreachable
  | aa, K.klist _ _ lb =>
    if s.at' ≠ 0 ∧ s.bt = 0 then do
      let zs ← dyadicMapRight op_ii op_ff op_fi op_if aa lb
      .ok (K.from_list zs)
    else .error .recUnreachable
  | _, _ => .error .recUnreachable
termination_by (sizeOf a + sizeOf b, 0)

/-- Recursion of `dyadic_scalar` over the elements of a left list operand. -/
def dyadicMapLeft (op_ii : Int → Int → Int) (op_ff : Rat → Rat → Rat)
    (op_fi : Rat → Int → Rat) (op_if : Int → Rat → Rat) :
    List K → K → Except KErr (List K)
  | [], _ => .ok []
  | x :: xs, b => do
    let z ← dyadic_scalar op_ii op_ff op_fi op_if x b
    let zs ← dyadicMapLeft op_ii op_ff op_fi op_if xs b
    .ok (z :: zs)
termination_by l b => (sizeOf l + sizeOf b, 0)

/-- Recursion of `dyadic_scalar` over the elements of a right list operand. -/
def dyadicMapRight (op_ii : Int → Int → Int) (op_ff : Rat → Rat → Rat)
    (op_fi : Rat → Int → Rat) (op_if : Int → Rat → Rat) :
    K → List K → Except KErr (List K)
  | _, [] => .ok []
  | a, y :: ys => do
    let z ← dyadic_scalar op_ii op_ff op_fi op_if a y
    let zs ← dyadicMapRight op_ii op_ff op_fi op_if a ys
    .ok (z :: zs)
termination_by a l => (sizeOf a + sizeOf l, 0)

/-- Pairwise recursion of `dyadic_scalar` over two equal-length list operands. -/
def dyadicZip (op_ii : Int → Int → Int) (op_ff : Rat → Rat → Rat)
    (op_fi : Rat → Int → Rat) (op_if : Int → Rat → Rat) :
    List K → List K → Except KErr (List K)
  | x :: xs, y :: ys => do
    let z ← dyadic_scalar op_ii op_ff op_fi op_if x y
    let zs ← dyadicZip op_ii op_ff op_fi op_if xs ys
    .ok (z :: zs)
  | _, _ => .ok []
termination_by l m => (sizeOf l + sizeOf m, 0)
end

/-- `times` from `va.rs`: element-wise multiplication. -/
def times (a b : K) : Except KErr K :=
  dyadic_scalar (fun x y => x * y) (fun x y => x * y)
    (fun x y => x * K.i2f y) (fun x y => K.i2f x * y) a b

/-- `plus` from `va.rs`: element-wise addition. -/
def plus (a b : K) : Except KErr K :=
  dyadic_scalar (fun x y => x + y) (fun x y => x + y)
    (fun x y => x + K.i2f y) (fun x y => K.i2f x + y) a b

/-- `minus` from `va.rs`: element-wise subtraction. -/
def minus (a b : K) : Except KErr K :=
  dyadic_scalar (fun x y => x - y) (fun x y => x - y)
    (fun x y => x - K.i2f y) (fun x y => K.i2f x - y) a b

/-- The `SCALAR_EXPR_CASE` accumulation pattern of `_dot` (the Rust code
inlines this macro once per type pair, hoisting the converted constant out
of the loop in the broadcast cases; the value is identical): accumulate
`acc += mul x y` over the three broadcasting cases — equal counts,
`a` singleton, `b` singleton — for `zn` iterations, starting from `0`. -/
def dotCase {α β γ : Type} [Zero γ] [Add γ] (xa : List α) (xb : List β)
    (an bn zn : Int) (mul : α → β → γ) : Except KErr γ :=
  let n := zn.toNat
  if an = bn then
    foldlME (fun acc i => do
      let x ← idx xa i
      let y ← idx xb i
      .ok (acc + mul x y)) 0 (List.range n)
  else if an = 1 then do
    let x0 ← idx xa 0
    foldlME (fun acc i => do
      let y ← idx xb i
      .ok (acc + mul x0 y)) 0 (List.range n)
  else do
    let y0 ← idx xb 0
    foldlME (fun acc i => do
      let x ← idx xa i
      .ok (acc + mul x y0)) 0 (List.range n)

/-- `dot` from `va.rs`: the fused multiply-accumulate.  Each numeric type
pair runs the three broadcasting accumulation loops (`dotCase`) with its
own per-pair conversion (`DOT_F`, `DOT_FI`, `DOT_IF`, `DOT_I`) and returns
a single atom; if either operand is a general list it falls back to
`times(a,b)` and then attempts to sum the product's payload. -/
def dot (a b : K) : Except KErr K := do
  let s ← scalar_init a b
  let abs_a := |s.at'|
  let abs_b := |s.bt|
  if abs_a = 2 ∧ abs_b = 2 then do
    let af ← a.kf_data
    let bf ← b.kf_data
    let acc ← dotCase af bf s.an s.bn s.zn (fun x y => x * y)
    .ok (K.kf acc)
  else if abs_a = 2 ∧ abs_b = 1 then do
    let af ← a.kf_data
    let bi ← b.ki_data
    let acc ← dotCase af bi s.an s.bn s.zn (fun x y => x * K.i2f y)
    .ok (K.kf acc)
  else if abs_a = 1 ∧ abs_b = 2 then do
    let ai ← a.ki_data
    let bf ← b.kf_data
    let acc ← dotCase ai bf s.an s.bn s.zn (fun x y => K.i2f x * y)
    .ok (K.kf acc)
  else if abs_a = 1 ∧ abs_b = 1 then do
    let ai ← a.ki_data
    let bi ← b.ki_data
    let acc ← dotCase ai bi s.an s.bn s.zn (fun x y => x * y)
    .ok (K.ki acc)
  else if abs_a = 0 ∨ abs_b = 0 then do
    let product ← times a b
    match product with
    | K.ints _ _ v => .ok (K.ki (v.foldl (· + ·) 0))
    | K.floats _ _ v => .ok (K.kf (v.foldl (· + ·) 0))
    | K.klist _ _ _ => .error .sumList
  else .error .typeError

/-- Rust `String` (and `PathBuf` rendered with `display()`) modelled as a
list of characters, matching `chars()`-based processing. -/
abbrev Str := List Char

/-- A `Piece` from `piece.rs`: id, content hash (u64, modelled as `Nat`),
text content, source path, 1-indexed start line, and the embedding `K`. -/
structure Piece where
  id : Nat
  hash : Nat
  content : Str
  source : Str
  start_line : Nat
  embedding : K
deriving Repr

/-- A `QueryResult` from `seeder.rs`. -/
structure QueryResult where
  piece_id : Nat
  score : Rat
  source : Str
  start_line : Nat
  preview : Str
  content : Str
deriving DecidableEq, Repr

/-- The `QueryResult` a worker builds for a surviving piece: the preview is
the first 100 characters of the content (`chars().take(100)`). -/
def queryResultOf (p : Piece) (score : Rat) : QueryResult :=
  ⟨p.id, score, p.source, p.start_line, p.content.take 100, p.content⟩

/-- Score extraction from the `dot` result, as in the worker loop:
`Floats(v) => v[0]`, `Ints(v) => v[0] as f64`, anything else `0.0`. -/
def scoreOf (d : K) : Except KErr Rat :=
  match d with
  | K.floats _ _ v => do
    let x ← idx v 0
    .ok x
  | K.ints _ _ v => do
    let x ← idx v 0
    .ok (x : Rat)
  | K.klist _ _ _ => .ok 0

/-- The fixed relevance floor `0.001` of the worker loop, as the exact
rational `1/1000` (written as a raw fraction so that comparisons against
it compute). -/
def relevanceFloor : Rat := ⟨1, 1000, by norm_num, Nat.coprime_one_left 1000⟩

/-- One worker's scan of its shard for a query: score every piece with
`dot`, keep those with `score > 0.001`, in shard order.  A scoring panic
(inside `dot` or on the `v[0]` extraction) kills the whole query. -/
def seederScan (query : K) : List Piece → Except KErr (List QueryResult)
  | [] => .ok []
  | p :: rest => do
    let d ← dot query p.embedding
    let score ← scoreOf d
    let tail ← seederScan query rest
    .ok (if relevanceFloor < score then queryResultOf p score :: tail else tail)

/-- The dedup loop of `Swarm::from_pieces`: keep the first occurrence of
each content hash, preserving order (`seen` is the `HashSet`). -/
def dedupPieces : List Piece → List Nat → List Piece
  | [], _ => []
  | p :: rest, seen =>
    if p.hash ∈ seen then dedupPieces rest seen
    else p :: dedupPieces rest (p.hash :: seen)

/-- The deduplicated piece list of a swarm built from `pieces`. -/
def uniqueOf (pieces : List Piece) : List Piece := dedupPieces pieces []

/-- Shard `i` of the unique piece list for `N` workers, as in
`Swarm::from_pieces`: chunk size `ceil(U/N)`, shard `i` is
`unique[i*chunk .. min(i*chunk+chunk, U)]`, empty when `i*chunk ≥ U`. -/
def shardOf (unique : List Piece) (N i : Nat) : List Piece :=
  let total := unique.length
  let chunk := (total + N - 1) / N
  let start := i * chunk
  let e := min (start + chunk) total
  if start < total then (unique.drop start).take (e - start) else []

/-- The comparison `Swarm::query` sorts by: descending score
(`b.score.partial_cmp(&a.score)`). -/
def scoreDesc (x y : QueryResult) : Prop := y.score ≤ x.score

instance : DecidableRel scoreDesc :=
  fun x y => inferInstanceAs (Decidable (y.score ≤ x.score))

instance : IsTotal QueryResult scoreDesc := ⟨fun x y => le_total y.score x.score⟩

instance : IsTrans QueryResult scoreDesc := ⟨fun _ _ _ h1 h2 => le_trans h2 h1⟩

/-- `Swarm::query` on a swarm built by `Swarm::from_pieces` with `N`
workers from `pieces`: every worker scans its shard, the `N` batches are
concatenated, sorted by descending score (a stable comparison sort,
modelled by `insertionSort`, which is also stable), and truncated to
`top_k`.  A worker panic means the query never returns. -/
def swarmQuery (N : Nat) (pieces : List Piece) (query : K) (top_k : Nat) :
    Except KErr (List QueryResult) := do
  let unique := uniqueOf pieces
  let batches ← mapME (fun i => seederScan query (shardOf unique N i)) (List.range N)
  let all_results := batches.flatten
  .ok ((List.insertionSort scoreDesc all_results).take top_k)

/-- The score a query assigns a piece: `dot` then the worker's extraction. -/
def pieceScore (query : K) (p : Piece) : Except KErr Rat := do
  let d ← dot query p.embedding
  scoreOf d

/-- Whether a piece clears the relevance floor for a query (and its
scoring succeeds). -/
def clearsFloor (query : K) (p : Piece) : Bool :=
  match pieceScore query p with
  | .ok s => decide (relevanceFloor < s)
  | .error _ => false

/-- The optional `QueryResult` a query produces for one piece. -/
def toQR (query : K) (p : Piece) : Option QueryResult :=
  match pieceScore query p with
  | .ok s => if relevanceFloor < s then some (queryResultOf p s) else none
  | .error _ => none

example : dot (K.from_ints [1, 2]) (K.from_ints [3, 4]) = .ok (K.ki 11) := rfl
example : dot (K.ki 2) (K.from_ints [3, 4]) = .ok (K.ki 14) := rfl
example : wf (K.from_ints [1, 2]) = true := by decide

/-! ### Basic lemmas about the error monad helpers -/

@[simp]
theorem ok_bind {α β : Type} (a : α) (f : α → Except KErr β) :
    (Except.ok a : Except KErr α) >>= f = f a := rfl

@[simp]
theorem error_bind {α β : Type} (e : KErr) (f : α → Except KErr β) :
    (Except.error e : Except KErr α) >>= f = .error e := rfl

theorem bind_ok_inv {α β : Type} {m : Except KErr α} {f : α → Except KErr β} {z : β}
    (h : m >>= f = .ok z) : ∃ x, m = .ok x ∧ f x = .ok z := by
  cases m with
  | ok x => exact ⟨x, rfl, h⟩
  | error e => simp [Except.bind] at h

theorem idx_eq_ok {α : Type} (v : List α) (d : α) (i : Nat) (h : i < v.length) :
    idx v i = .ok (v.getD i d) := by
  simp [idx, List.get?_eq_getElem?, List.getElem?_eq_getElem h, List.getD_eq_getElem v d h]

theorem idx_eq_error {α : Type} (v : List α) (i : Nat) (h : v.length ≤ i) :
    idx v i = .error .indexOOB := by
  simp [idx, List.get?_eq_getElem?, List.getElem?_eq_none_iff.2 h]

theorem idx_ok_mem {α : Type} {v : List α} {i : Nat} {x : α}
    (h : idx v i = .ok x) : x ∈ v := by
  unfold idx at h
  split at h
  next y hy =>
    cases h
    exact List.get?_mem hy
  next => exact Except.noConfusion h

theorem mapME_eq_ok {α β : Type} (f : α → Except KErr β) (g : α → β) :
    ∀ (l : List α), (∀ x ∈ l, f x = .ok (g x)) → mapME f l = .ok (l.map g)
  | [], _ => rfl
  | x :: xs, h => by
    have hx := h x (by simp)
    have hxs := mapME_eq_ok f g xs (fun y hy => h y (by simp [hy]))
    simp [mapME, hx, hxs]

theorem mapME_ok_length {α β : Type} {f : α → Except KErr β} :
    ∀ {l : List α} {out : List β}, mapME f l = .ok out → out.length = l.length := by
  intro l
  induction l with
  | nil => intro out h; simp only [mapME] at h; cases h; simp
  | cons x xs ih =>
    intro out h
    simp only [mapME] at h
    obtain ⟨y, hy, h2⟩ := bind_ok_inv h
    obtain ⟨ys, hys, h3⟩ := bind_ok_inv h2
    simp at h3
    subst h3
    simp [ih hys]

theorem mapME_ok_mem {α β : Type} {f : α → Except KErr β} :
    ∀ {l : List α} {out : List β}, mapME f l = .ok out →
      ∀ y ∈ out, ∃ x ∈ l, f x = .ok y := by
  intro l
  induction l with
  | nil => intro out h; simp only [mapME] at h; cases h; simp
  | cons x xs ih =>
    intro out h
    simp only [mapME] at h
    obtain ⟨y, hy, h2⟩ := bind_ok_inv h
    obtain ⟨ys, hys, h3⟩ := bind_ok_inv h2
    simp at h3
    subst h3
    intro z hz
    rcases List.mem_cons.1 hz with hz | hz
    · exact ⟨x, by simp, hz ▸ hy⟩
    · obtain ⟨w, hw, hfw⟩ := ih hys z hz
      exact ⟨w, by simp [hw], hfw⟩

theorem mapME_ok_forall_isOk {α β : Type} {f : α → Except KErr β} :
    ∀ {l : List α} {out : List β}, mapME f l = .ok out →
      ∀ x ∈ l, ∃ y, f x = .ok y := by
  intro l
  induction l with
  | nil => intro out _ x hx; simp at hx
  | cons a xs ih =>
    intro out h
    simp only [mapME] at h
    obtain ⟨y, hy, h2⟩ := bind_ok_inv h
    obtain ⟨ys, hys, _⟩ := bind_ok_inv h2
    intro x hx
    rcases List.mem_cons.1 hx with hx | hx
    · exact ⟨y, hx ▸ hy⟩
    · exact ih hys x hx

theorem foldlME_append {γ α : Type} (step : γ → α → Except KErr γ) :
    ∀ (l1 l2 : List α) (init : γ),
      foldlME step init (l1 ++ l2) =
        (foldlME step init l1) >>= fun acc => foldlME step acc l2 := by
  intro l1
  induction l1 with
  | nil => intro l2 init; simp [foldlME]
  | cons x xs ih =>
    intro l2 init
    simp only [List.cons_append, foldlME]
    cases step init x with
    | ok acc' => simp [ih]
    | error e => simp

/-! ### The `sumf` accumulation -/

@[simp]
theorem sumf_zero {γ : Type} [AddZeroClass γ] (f : Nat → γ) : sumf 0 f = 0 := rfl

theorem foldl_add_shift {γ : Type} [AddCommMonoid γ] (f : Nat → γ) :
    ∀ (l : List Nat) (init : γ),
      l.foldl (fun acc i => acc + f i) init = init + l.foldl (fun acc i => acc + f i) 0 := by
  intro l
  induction l with
  | nil => intro init; simp
  | cons x xs ih =>
    intro init
    simp only [List.foldl_cons, zero_add]
    rw [ih (init + f x), ih (f x), add_assoc]

theorem sumf_succ {γ : Type} [AddCommMonoid γ] (n : Nat) (f : Nat → γ) :
    sumf (n + 1) f = sumf n f + f n := by
  unfold sumf
  rw [List.range_succ, List.foldl_append]
  simp

theorem sumf_congr {γ : Type} [AddCommMonoid γ] {n : Nat} {f g : Nat → γ}
    (h : ∀ i, i < n → f i = g i) : sumf n f = sumf n g := by
  induction n with
  | zero => simp
  | succ m ih =>
    rw [sumf_succ, sumf_succ, ih (fun i hi => h i (Nat.lt_succ_of_lt hi)),
      h m (Nat.lt_succ_self m)]

theorem sumf_mul_right (n : Nat) (f : Nat → Rat) (c : Rat) :
    sumf n (fun i => f i * c) = sumf n f * c := by
  induction n with
  | zero => simp
  | succ m ih => rw [sumf_succ, sumf_succ, ih, add_mul]

theorem sumf_nonneg {n : Nat} {f : Nat → Rat} (h : ∀ i, i < n → 0 ≤ f i) :
    0 ≤ sumf n f := by
  induction n with
  | zero => simp
  | succ m ih =>
    rw [sumf_succ]
    exact add_nonneg (ih (fun i hi => h i (Nat.lt_succ_of_lt hi))) (h m (Nat.lt_succ_self m))

theorem sumf_pos {n : Nat} {f : Nat → Rat} (h0 : ∀ i, i < n → 0 ≤ f i)
    {j : Nat} (hj : j < n) (hpos : 0 < f j) : 0 < sumf n f := by
  induction n with
  | zero => exact absurd hj (Nat.not_lt_zero j)
  | succ m ih =>
    rw [sumf_succ]
    rcases Nat.lt_succ_iff_lt_or_eq.1 hj with hjm | hjm
    · exact add_pos_of_pos_of_nonneg (ih (fun i hi => h0 i (Nat.lt_succ_of_lt hi)) hjm)
        (h0 m (Nat.lt_succ_self m))
    · subst hjm
      exact add_pos_of_nonneg_of_pos (sumf_nonneg (fun i hi => h0 i (Nat.lt_succ_of_lt hi))) hpos

theorem foldlME_range_ok {γ : Type} [AddCommMonoid γ]
    (step : γ → Nat → Except KErr γ) (g : Nat → γ) :
    ∀ (n : Nat), (∀ acc i, i < n → step acc i = .ok (acc + g i)) →
      ∀ init, foldlME step init (List.range n) = .ok (init + sumf n g) := by
  intro n
  induction n with
  | zero => intro _ init; simp [foldlME]
  | succ m ih =>
    intro h init
    rw [List.range_succ, foldlME_append,
      ih (fun acc i hi => h acc i (Nat.lt_succ_of_lt hi)) init]
    simp only [ok_bind, foldlME]
    rw [h _ m (Nat.lt_succ_self m)]
    simp [foldlME, sumf_succ, add_assoc]

theorem foldlME_zero_or_error {γ α : Type} {step : γ → α → Except KErr γ} :
    ∀ {l : List α}, (∀ acc x, x ∈ l → step acc x = .ok acc ∨ ∃ e, step acc x = .error e) →
      ∀ init, foldlME step init l = .ok init ∨ ∃ e, foldlME step init l = .error e := by
  intro l
  induction l with
  | nil => intro _ init; left; rfl
  | cons x xs ih =>
    intro h init
    simp only [foldlME]
    rcases h init x (by simp) with hx | ⟨e, hx⟩
    · rw [hx]
      exact ih (fun acc y hy => h acc y (by simp [hy])) init
    · rw [hx]
      exact Or.inr ⟨e, rfl⟩

/-! ### Inversion lemmas for `scalar_init` and `wf` -/

theorem scalar_init_ok_iff {a b : K} {s : ScalarInit} :
    scalar_init a b = .ok s ↔
      (¬(a.t < 0 ∧ b.t < 0 ∧ a.n ≠ b.n) ∧ ¬(a.t = 0 ∧ b.t = 0 ∧ a.n ≠ b.n) ∧
       ¬(a.n ≠ b.n ∧ a.n ≠ 1 ∧ b.n ≠ 1) ∧ ¬(2 < |ztOf a.t b.t a.n b.n|) ∧
       s = ⟨a.t, a.n, b.t, b.n, ztOf a.t b.t a.n b.n, max a.n b.n⟩) := by
  unfold scalar_init
  dsimp only
  split_ifs with h1 h2 h3 h4 <;> simp_all [eq_comm]

theorem scalar_init_isOk_iff {a b : K} :
    (scalar_init a b).isOk = true ↔
      (¬(a.t < 0 ∧ b.t < 0 ∧ a.n ≠ b.n) ∧ ¬(a.t = 0 ∧ b.t = 0 ∧ a.n ≠ b.n) ∧
       ¬(a.n ≠ b.n ∧ a.n ≠ 1 ∧ b.n ≠ 1) ∧ ¬(2 < |ztOf a.t b.t a.n b.n|)) := by
  constructor
  · intro h
    cases hs : scalar_init a b with
    | ok s =>
      have := scalar_init_ok_iff.1 hs
      exact ⟨this.1, this.2.1, this.2.2.1, this.2.2.2.1⟩
    | error e => rw [hs] at h; exact Bool.noConfusion h
  · intro ⟨h1, h2, h3, h4⟩
    have : scalar_init a b = .ok ⟨a.t, a.n, b.t, b.n, ztOf a.t b.t a.n b.n, max a.n b.n⟩ :=
      scalar_init_ok_iff.2 ⟨h1, h2, h3, h4, rfl⟩
    rw [this]
    rfl

theorem ztOf_abs_le {at' bt an bn : Int} (ha : |at'| ≤ 2) (hb : |bt| ≤ 2) :
    ¬(2 < |ztOf at' bt an bn|) := by
  have h1 : (0:Int) ≤ max |at'| |bt| := le_trans (abs_nonneg at') (le_max_left _ _)
  have h2 : max |at'| |bt| ≤ 2 := max_le ha hb
  unfold ztOf
  dsimp only
  split_ifs <;> simp only [abs_neg, abs_abs, abs_zero] <;>
    first
    | omega
    | (rw [abs_of_nonneg h1]; omega)

theorem wfList_iff {v : List K} : wfList v = true ↔ ∀ x ∈ v, wf x = true := by
  induction v with
  | nil => simp [wfList]
  | cons x xs ih => simp [wfList, ih]

theorem wf_ints_iff {t n : Int} {v : List Int} :
    wf (K.ints t n v) = true ↔
      ((t = 1 ∨ t = -1) ∧ n = (v.length : Int) ∧ (0 < t ∨ n = 1)) := by
  simp [wf, and_assoc]

theorem wf_floats_iff {t n : Int} {v : List Rat} :
    wf (K.floats t n v) = true ↔
      ((t = 2 ∨ t = -2) ∧ n = (v.length : Int) ∧ (0 < t ∨ n = 1)) := by
  simp [wf, and_assoc]

theorem wf_klist_iff {t n : Int} {v : List K} :
    wf (K.klist t n v) = true ↔
      (t = 0 ∧ n = (v.length : Int) ∧ ∀ x ∈ v, wf x = true) := by
  simp [wf, and_assoc, wfList_iff]

/-! ### Shape conditions and evaluation lemmas for the scalar loops -/

/-- The length configurations on which the broadcasting loops succeed:
equal counts, or one operand a singleton against a longer operand. -/
def goodShape (a b : K) : Prop :=
  a.n = b.n ∨ (a.n = 1 ∧ 1 < b.n) ∨ (b.n = 1 ∧ 1 < a.n)

instance (a b : K) : Decidable (goodShape a b) := by
  unfold goodShape
  infer_instance

theorem ztOf_cases {at' bt an bn : Int} (hta : at' ≠ 0) (htb : bt ≠ 0) :
    ztOf at' bt an bn = max |at'| |bt| ∨
      (ztOf at' bt an bn = -(max |at'| |bt|) ∧ at' < 0 ∧ bt < 0 ∧ ¬(1 < max an bn)) := by
  have h1 : (0:Int) ≤ max |at'| |bt| := le_trans (abs_nonneg at') (le_max_left _ _)
  unfold ztOf
  dsimp only
  rw [if_neg (by tauto : ¬(at' = 0 ∨ bt = 0))]
  split_ifs with hzn hatom
  · left; exact abs_of_nonneg h1
  · right; exact ⟨by rw [abs_of_nonneg h1], hatom.1, hatom.2, hzn⟩
  · left; exact abs_of_nonneg h1

theorem foldlME_err_head {γ : Type} {step : γ → Nat → Except KErr γ} {n : Nat}
    (hn : 0 < n) {e : KErr} (h : ∀ acc, step acc 0 = .error e) (init : γ) :
    foldlME step init (List.range n) = .error e := by
  obtain ⟨m, rfl⟩ : ∃ m, n = m + 1 := ⟨n - 1, by omega⟩
  rw [List.range_succ_eq_map]
  simp [foldlME, h init]

theorem scalar_op_eval_eq {α : Type} (xa xb : List α) (an bn zn : Int)
    (op : α → α → α) (d : α)
    (ha : an = (xa.length : Int)) (hb : bn = (xb.length : Int)) (hz : zn = max an bn)
    (hlen : xa.length = xb.length) :
    scalar_op xa xb an bn zn op =
      .ok ((List.range xa.length).map fun i => op (xa.getD i d) (xb.getD i d)) := by
  have han : an = bn := by rw [ha, hb, hlen]
  have hzn : zn.toNat = xa.length := by
    rw [hz, ha, hb, ← hlen, max_self, Int.toNat_ofNat]
  unfold scalar_op
  dsimp only
  rw [if_pos han, hzn]
  apply mapME_eq_ok
  intro i hi
  have hi' : i < xa.length := List.mem_range.1 hi
  rw [idx_eq_ok xa d i hi', idx_eq_ok xb d i (hlen ▸ hi')]
  rfl

theorem scalar_op_eval_a1 {α : Type} (xa xb : List α) (an bn zn : Int)
    (op : α → α → α) (d : α)
    (ha : an = 1) (hxa : xa.length = 1) (hb : bn = (xb.length : Int)) (hz : zn = max an bn)
    (hlt : 1 < xb.length) :
    scalar_op xa xb an bn zn op =
      .ok ((List.range xb.length).map fun i => op (xa.getD 0 d) (xb.getD i d)) := by
  have hne : ¬(an = bn) := by rw [ha, hb]; omega
  have hzn : zn.toNat = xb.length := by
    rw [hz, ha, hb, max_eq_right (by omega), Int.toNat_ofNat]
  unfold scalar_op
  dsimp only
  rw [if_neg hne, if_pos ha, idx_eq_ok xa d 0 (by omega)]
  simp only [ok_bind]
  rw [hzn]
  apply mapME_eq_ok
  intro i hi
  rw [idx_eq_ok xb d i (List.mem_range.1 hi)]
  rfl

theorem scalar_op_eval_b1 {α : Type} (xa xb : List α) (an bn zn : Int)
    (op : α → α → α) (d : α)
    (hb : bn = 1) (hxb : xb.length = 1) (ha : an = (xa.length : Int)) (hz : zn = max an bn)
    (hlt : 1 < xa.length) :
    scalar_op xa xb an bn zn op =
      .ok ((List.range xa.length).map fun i => op (xa.getD i d) (xb.getD 0 d)) := by
  have hne : ¬(an = bn) := by rw [ha, hb]; omega
  have hn1 : ¬(an = 1) := by rw [ha]; omega
  have hzn : zn.toNat = xa.length := by
    rw [hz, ha, hb, max_eq_left (by omega), Int.toNat_ofNat]
  unfold scalar_op
  dsimp only
  rw [if_neg hne, if_neg hn1, idx_eq_ok xb d 0 (by omega)]
  simp only [ok_bind]
  rw [hzn]
  apply mapME_eq_ok
  intro i hi
  rw [idx_eq_ok xa d i (List.mem_range.1 hi)]
  rfl

theorem scalar_op_err_10 {α : Type} (xa xb : List α) (an bn zn : Int)
    (op : α → α → α)
    (ha : an = 1) (hxa : xa.length = 1) (hb : bn = 0) (hxb : xb = [])
    (hz : zn = max an bn) :
    scalar_op xa xb an bn zn op = .error .indexOOB := by
  subst hxb hz ha hb
  obtain ⟨x, rfl⟩ := List.length_eq_one.1 hxa
  rfl

theorem scalar_op_err_01 {α : Type} (xa xb : List α) (an bn zn : Int)
    (op : α → α → α)
    (ha : an = 0) (hxa : xa = []) (hb : bn = 1) (hxb : xb.length = 1)
    (hz : zn = max an bn) :
    scalar_op xa xb an bn zn op = .error .indexOOB := by
  subst hxa hz ha hb
  obtain ⟨y, rfl⟩ := List.length_eq_one.1 hxb
  rfl

theorem dotCase_eval_eq {α β γ : Type} [AddCommMonoid γ] (xa : List α) (xb : List β)
    (an bn zn : Int) (mul : α → β → γ) (da : α) (db : β)
    (ha : an = (xa.length : Int)) (hb : bn = (xb.length : Int)) (hz : zn = max an bn)
    (hlen : xa.length = xb.length) :
    dotCase xa xb an bn zn mul =
      .ok (sumf xa.length fun i => mul (xa.getD i da) (xb.getD i db)) := by
  have han : an = bn := by rw [ha, hb, hlen]
  have hzn : zn.toNat = xa.length := by
    rw [hz, ha, hb, ← hlen, max_self, Int.toNat_ofNat]
  unfold dotCase
  dsimp only
  rw [if_pos han, hzn]
  have := foldlME_range_ok
    (fun acc i => do
      let x ← idx xa i
      let y ← idx xb i
      .ok (acc + mul x y))
    (fun i => mul (xa.getD i da) (xb.getD i db)) xa.length
    (fun acc i hi => by
      dsimp only
      rw [idx_eq_ok xa da i hi, idx_eq_ok xb db i (hlen ▸ hi)]
      rfl) 0
  rw [this, zero_add]

theorem dotCase_eval_a1 {α β γ : Type} [AddCommMonoid γ] (xa : List α) (xb : List β)
    (an bn zn : Int) (mul : α → β → γ) (da : α) (db : β)
    (ha : an = 1) (hxa : xa.length = 1) (hb : bn = (xb.length : Int)) (hz : zn = max an bn)
    (hlt : 1 < xb.length) :
    dotCase xa xb an bn zn mul =
      .ok (sumf xb.length fun i => mul (xa.getD 0 da) (xb.getD i db)) := by
  have hne : ¬(an = bn) := by rw [ha, hb]; omega
  have hzn : zn.toNat = xb.length := by
    rw [hz, ha, hb, max_eq_right (by omega), Int.toNat_ofNat]
  unfold dotCase
  dsimp only
  rw [if_neg hne, if_pos ha, idx_eq_ok xa da 0 (by omega)]
  simp only [ok_bind]
  rw [hzn]
  have := foldlME_range_ok
    (fun acc i => do
      let y ← idx xb i
      .ok (acc + mul (xa.getD 0 da) y))
    (fun i => mul (xa.getD 0 da) (xb.getD i db)) xb.length
    (fun acc i hi => by dsimp only; rw [idx_eq_ok xb db i hi]; rfl) 0
  rw [this, zero_add]

theorem dotCase_eval_b1 {α β γ : Type} [AddCommMonoid γ] (xa : List α) (xb : List β)
    (an bn zn : Int) (mul : α → β → γ) (da : α) (db : β)
    (hb : bn = 1) (hxb : xb.length = 1) (ha : an = (xa.length : Int)) (hz : zn = max an bn)
    (hlt : 1 < xa.length) :
    dotCase xa xb an bn zn mul =
      .ok (sumf xa.length fun i => mul (xa.getD i da) (xb.getD 0 db)) := by
  have hne : ¬(an = bn) := by rw [ha, hb]; omega
  have hn1 : ¬(an = 1) := by rw [ha]; omega
  have hzn : zn.toNat = xa.length := by
    rw [hz, ha, hb, max_eq_left (by omega), Int.toNat_ofNat]
  unfold dotCase
  dsimp only
  rw [if_neg hne, if_neg hn1, idx_eq_ok xb db 0 (by omega)]
  simp only [ok_bind]
  rw [hzn]
  have := foldlME_range_ok
    (fun acc i => do
      let x ← idx xa i
      .ok (acc + mul x (xb.getD 0 db)))
    (fun i => mul (xa.getD i da) (xb.getD 0 db)) xa.length
    (fun acc i hi => by dsimp only; rw [idx_eq_ok xa da i hi]; rfl) 0
  rw [this, zero_add]

theorem dotCase_err_10 {α β γ : Type} [Zero γ] [Add γ] (xa : List α) (xb : List β)
    (an bn zn : Int) (mul : α → β → γ)
    (ha : an = 1) (hxa : xa.length = 1) (hb : bn = 0) (hxb : xb = [])
    (hz : zn = max an bn) :
    dotCase xa xb an bn zn mul = .error .indexOOB := by
  subst hxb hz ha hb
  obtain ⟨x, rfl⟩ := List.length_eq_one.1 hxa
  rfl

theorem dotCase_err_01 {α β γ : Type} [Zero γ] [Add γ] (xa : List α) (xb : List β)
    (an bn zn : Int) (mul : α → β → γ)
    (ha : an = 0) (hxa : xa = []) (hb : bn = 1) (hxb : xb.length = 1)
    (hz : zn = max an bn) :
    dotCase xa xb an bn zn mul = .error .indexOOB := by
  subst hxa hz ha hb
  obtain ⟨y, rfl⟩ := List.length_eq_one.1 hxb
  rfl

/-! ### Reduction lemmas: dispatch of `dyadic_scalar` and `dot` per type pair -/

theorem scalar_init_eval {a b : K}
    (h1 : ¬(a.t < 0 ∧ b.t < 0 ∧ a.n ≠ b.n)) (h2 : ¬(a.t = 0 ∧ b.t = 0 ∧ a.n ≠ b.n))
    (h3 : ¬(a.n ≠ b.n ∧ a.n ≠ 1 ∧ b.n ≠ 1)) (h4 : ¬(2 < |ztOf a.t b.t a.n b.n|)) :
    scalar_init a b = .ok ⟨a.t, a.n, b.t, b.n, ztOf a.t b.t a.n b.n, max a.n b.n⟩ :=
  scalar_init_ok_iff.2 ⟨h1, h2, h3, h4, rfl⟩

theorem wf_bounds {a : K} (h : wf a = true) :
    |a.t| ≤ 2 ∧ 0 ≤ a.n ∧ (a.t < 0 → a.n = 1) := by
  cases a with
  | ints t n v =>
    obtain ⟨ht, hn, hatom⟩ := wf_ints_iff.1 h
    refine ⟨?_, ?_, ?_⟩ <;> simp only [K.t, K.n] <;> rcases ht with rfl | rfl <;> simp_all <;> omega
  | floats t n v =>
    obtain ⟨ht, hn, hatom⟩ := wf_floats_iff.1 h
    refine ⟨?_, ?_, ?_⟩ <;> simp only [K.t, K.n] <;> rcases ht with rfl | rfl <;> simp_all <;> omega
  | klist t n v =>
    obtain ⟨ht, hn, -⟩ := wf_klist_iff.1 h
    subst ht
    refine ⟨by simp [K.t], by simp [K.n, hn], by simp [K.t]⟩

theorem scalar_init_ok_of_wf {a b : K} (hwa : wf a = true) (hwb : wf b = true)
    (hpass : a.n = b.n ∨ a.n = 1 ∨ b.n = 1)
    (hlists : a.t = 0 ∧ b.t = 0 → a.n = b.n) :
    scalar_init a b = .ok ⟨a.t, a.n, b.t, b.n, ztOf a.t b.t a.n b.n, max a.n b.n⟩ := by
  obtain ⟨hta, -, haa⟩ := wf_bounds hwa
  obtain ⟨htb, -, hab⟩ := wf_bounds hwb
  refine scalar_init_eval ?_ ?_ ?_ (ztOf_abs_le hta htb)
  · rintro ⟨h1, h2, h3⟩
    exact h3 (by rw [haa h1, hab h2])
  · rintro ⟨h1, h2, h3⟩
    exact h3 (hlists ⟨h1, h2⟩)
  · rintro ⟨h1, h2, h3⟩
    rcases hpass with h | h | h <;> [exact h1 h; exact h2 h; exact h3 h]

theorem dyadic_ff_reduce (op_ii : Int → Int → Int) (op_ff : Rat → Rat → Rat)
    (op_fi : Rat → Int → Rat) (op_if : Int → Rat → Rat)
    {ta na tb nb : Int} {va vb : List Rat}
    (h2a : |ta| = 2) (h2b : |tb| = 2)
    (hinit : scalar_init (K.floats ta na va) (K.floats tb nb vb) =
      .ok ⟨ta, na, tb, nb, ztOf ta tb na nb, max na nb⟩) :
    dyadic_scalar op_ii op_ff op_fi op_if (K.floats ta na va) (K.floats tb nb vb) =
      (scalar_op va vb na nb (max na nb) op_ff).bind
        (fun zf => .ok (K.floats (ztOf ta tb na nb) (max na nb) zf)) := by
  unfold dyadic_scalar
  rw [hinit]
  simp only [ok_bind]
  dsimp only
  rw [if_pos ⟨h2a, h2b⟩]
  rfl

theorem dyadic_fi_reduce (op_ii : Int → Int → Int) (op_ff : Rat → Rat → Rat)
    (op_fi : Rat → Int → Rat) (op_if : Int → Rat → Rat)
    {ta na tb nb : Int} {va : List Rat} {vb : List Int}
    (h2a : |ta| = 2) (h1b : |tb| = 1)
    (hinit : scalar_init (K.floats ta na va) (K.ints tb nb vb) =
      .ok ⟨ta, na, tb, nb, ztOf ta tb na nb, max na nb⟩) :
    dyadic_scalar op_ii op_ff op_fi op_if (K.floats ta na va) (K.ints tb nb vb) =
      (scalar_op va (vb.map K.i2f) na nb (max na nb) op_ff).bind
        (fun zf => .ok (K.floats (ztOf ta tb na nb) (max na nb) zf)) := by
  unfold dyadic_scalar
  rw [hinit]
  simp only [ok_bind]
  dsimp only
  rw [if_neg (by rintro ⟨-, h⟩; omega), if_pos ⟨h2a, h1b⟩]
  rfl

theorem dyadic_if_reduce (op_ii : Int → Int → Int) (op_ff : Rat → Rat → Rat)
    (op_fi : Rat → Int → Rat) (op_if : Int → Rat → Rat)
    {ta na tb nb : Int} {va : List Int} {vb : List Rat}
    (h1a : |ta| = 1) (h2b : |tb| = 2)
    (hinit : scalar_init (K.ints ta na va) (K.floats tb nb vb) =
      .ok ⟨ta, na, tb, nb, ztOf ta tb na nb, max na nb⟩) :
    dyadic_scalar op_ii op_ff op_fi op_if (K.ints ta na va) (K.floats tb nb vb) =
      (scalar_op (va.map K.i2f) vb na nb (max na nb) op_ff).bind
        (fun zf => .ok (K.floats (ztOf ta tb na nb) (max na nb) zf)) := by
  unfold dyadic_scalar
  rw [hinit]
  simp only [ok_bind]
  dsimp only
  rw [if_neg (by rintro ⟨h, -⟩; omega), if_neg (by rintro ⟨h, -⟩; omega),
    if_pos ⟨h1a, h2b⟩]
  rfl

theorem dyadic_ii_reduce (op_ii : Int → Int → Int) (op_ff : Rat → Rat → Rat)
    (op_fi : Rat → Int → Rat) (op_if : Int → Rat → Rat)
    {ta na tb nb : Int} {va vb : List Int}
    (h1a : |ta| = 1) (h1b : |tb| = 1)
    (hinit : scalar_init (K.ints ta na va) (K.ints tb nb vb) =
      .ok ⟨ta, na, tb, nb, ztOf ta tb na nb, max na nb⟩) :
    dyadic_scalar op_ii op_ff op_fi op_if (K.ints ta na va) (K.ints tb nb vb) =
      (scalar_op va vb na nb (max na nb) op_ii).bind
        (fun zi => .ok (K.ints (ztOf ta tb na nb) (max na nb) zi)) := by
  unfold dyadic_scalar
  rw [hinit]
  simp only [ok_bind]
  dsimp only
  rw [if_neg (by rintro ⟨h, -⟩; omega), if_neg (by rintro ⟨h, -⟩; omega),
    if_neg (by rintro ⟨-, h⟩; omega), if_pos ⟨h1a, h1b⟩]
  rfl

theorem dot_ff_reduce {ta na tb nb : Int} {va vb : List Rat}
    (h2a : |ta| = 2) (h2b : |tb| = 2)
    (hinit : scalar_init (K.floats ta na va) (K.floats tb nb vb) =
      .ok ⟨ta, na, tb, nb, ztOf ta tb na nb, max na nb⟩) :
    dot (K.floats ta na va) (K.floats tb nb vb) =
      (dotCase va vb na nb (max na nb) (fun x y => x * y)).bind
        (fun acc => .ok (K.kf acc)) := by
  unfold dot
  rw [hinit]
  simp only [ok_bind]
  dsimp only
  rw [if_pos ⟨h2a, h2b⟩]
  rfl

theorem dot_fi_reduce {ta na tb nb : Int} {va : List Rat} {vb : List Int}
    (h2a : |ta| = 2) (h1b : |tb| = 1)
    (hinit : scalar_init (K.floats ta na va) (K.ints tb nb vb) =
      .ok ⟨ta, na, tb, nb, ztOf ta tb na nb, max na nb⟩) :
    dot (K.floats ta na va) (K.ints tb nb vb) =
      (dotCase va vb na nb (max na nb) (fun x y => x * K.i2f y)).bind
        (fun acc => .ok (K.kf acc)) := by
  unfold dot
  rw [hinit]
  simp only [ok_bind]
  dsimp only
  rw [if_neg (by rintro ⟨-, h⟩; omega), if_pos ⟨h2a, h1b⟩]
  rfl

theorem dot_if_reduce {ta na tb nb : Int} {va : List Int} {vb : List Rat}
    (h1a : |ta| = 1) (h2b : |tb| = 2)
    (hinit : scalar_init (K.ints ta na va) (K.floats tb nb vb) =
      .ok ⟨ta, na, tb, nb, ztOf ta tb na nb, max na nb⟩) :
    dot (K.ints ta na va) (K.floats tb nb vb) =
      (dotCase va vb na nb (max na nb) (fun x y => K.i2f x * y)).bind
        (fun acc => .ok (K.kf acc)) := by
  unfold dot
  rw [hinit]
  simp only [ok_bind]
  dsimp only
  rw [if_neg (by rintro ⟨h, -⟩; omega), if_neg (by rintro ⟨h, -⟩; omega),
    if_pos ⟨h1a, h2b⟩]
  rfl

theorem dot_ii_reduce {ta na tb nb : Int} {va vb : List Int}
    (h1a : |ta| = 1) (h1b : |tb| = 1)
    (hinit : scalar_init (K.ints ta na va) (K.ints tb nb vb) =
      .ok ⟨ta, na, tb, nb, ztOf ta tb na nb, max na nb⟩) :
    dot (K.ints ta na va) (K.ints tb nb vb) =
      (dotCase va vb na nb (max na nb) (fun x y => x * y)).bind
        (fun acc => .ok (K.ki acc)) := by
  unfold dot
  rw [hinit]
  simp only [ok_bind]
  dsimp only
  rw [if_neg (by rintro ⟨h, -⟩; omega), if_neg (by rintro ⟨h, -⟩; omega),
    if_neg (by rintro ⟨-, h⟩; omega), if_pos ⟨h1a, h1b⟩]
  rfl

/-! ### Success and failure of the numeric dispatch under well-formedness -/

theorem scalar_op_good {α : Type} [Inhabited α] (xa xb : List α) (an bn : Int)
    (op : α → α → α) (ha : an = (xa.length : Int)) (hb : bn = (xb.length : Int))
    (hgood : an = bn ∨ (an = 1 ∧ 1 < bn) ∨ (bn = 1 ∧ 1 < an)) :
    ∃ out, scalar_op xa xb an bn (max an bn) op = .ok out ∧
      (out.length : Int) = max an bn := by
  rcases hgood with h | ⟨h1, h2⟩ | ⟨h1, h2⟩
  · have hlen : xa.length = xb.length := by omega
    refine ⟨_, scalar_op_eval_eq xa xb an bn _ op default ha hb rfl hlen, ?_⟩
    simp only [List.length_map, List.length_range]
    omega
  · have hxa : xa.length = 1 := by omega
    have hlt : 1 < xb.length := by omega
    refine ⟨_, scalar_op_eval_a1 xa xb an bn _ op default h1 hxa hb rfl hlt, ?_⟩
    simp only [List.length_map, List.length_range]
    omega
  · have hxb : xb.length = 1 := by omega
    have hlt : 1 < xa.length := by omega
    refine ⟨_, scalar_op_eval_b1 xa xb an bn _ op default h1 hxb ha rfl hlt, ?_⟩
    simp only [List.length_map, List.length_range]
    omega

theorem scalar_op_bad {α : Type} (xa xb : List α) (an bn : Int)
    (op : α → α → α) (ha : an = (xa.length : Int)) (hb : bn = (xb.length : Int))
    (hbad : (an = 1 ∧ bn = 0) ∨ (an = 0 ∧ bn = 1)) :
    scalar_op xa xb an bn (max an bn) op = .error .indexOOB := by
  rcases hbad with ⟨h1, h2⟩ | ⟨h1, h2⟩
  · exact scalar_op_err_10 xa xb an bn _ op h1 (by omega)
      h2 (List.length_eq_zero.1 (by omega)) rfl
  · exact scalar_op_err_01 xa xb an bn _ op h1 (List.length_eq_zero.1 (by omega))
      h2 (by omega) rfl

theorem dotCase_good {α β γ : Type} [Inhabited α] [Inhabited β] [AddCommMonoid γ]
    (xa : List α) (xb : List β) (an bn : Int) (mul : α → β → γ)
    (ha : an = (xa.length : Int)) (hb : bn = (xb.length : Int))
    (hgood : an = bn ∨ (an = 1 ∧ 1 < bn) ∨ (bn = 1 ∧ 1 < an)) :
    ∃ acc, dotCase xa xb an bn (max an bn) mul = .ok acc := by
  rcases hgood with h | ⟨h1, h2⟩ | ⟨h1, h2⟩
  · exact ⟨_, dotCase_eval_eq xa xb an bn _ mul default default ha hb rfl (by omega)⟩
  · exact ⟨_, dotCase_eval_a1 xa xb an bn _ mul default default h1 (by omega) hb rfl (by omega)⟩
  · exact ⟨_, dotCase_eval_b1 xa xb an bn _ mul default default h1 (by omega) ha rfl (by omega)⟩

theorem dotCase_bad {α β γ : Type} [Zero γ] [Add γ]
    (xa : List α) (xb : List β) (an bn : Int) (mul : α → β → γ)
    (ha : an = (xa.length : Int)) (hb : bn = (xb.length : Int))
    (hbad : (an = 1 ∧ bn = 0) ∨ (an = 0 ∧ bn = 1)) :
    dotCase xa xb an bn (max an bn) mul = .error .indexOOB := by
  rcases hbad with ⟨h1, h2⟩ | ⟨h1, h2⟩
  · exact dotCase_err_10 xa xb an bn _ mul h1 (by omega)
      h2 (List.length_eq_zero.1 (by omega)) rfl
  · exact dotCase_err_01 xa xb an bn _ mul h1 (List.length_eq_zero.1 (by omega))
      h2 (by omega) rfl

theorem scalar_init_shape_err {a b : K} (hwa : wf a = true) (hwb : wf b = true)
    (hta : a.t ≠ 0) (h : a.n ≠ b.n ∧ a.n ≠ 1 ∧ b.n ≠ 1) :
    scalar_init a b = .error .shapeError := by
  obtain ⟨-, -, haa⟩ := wf_bounds hwa
  obtain ⟨-, -, hab⟩ := wf_bounds hwb
  unfold scalar_init
  dsimp only
  rw [if_neg (by rintro ⟨h1, h2, h3⟩; exact h3 (by rw [haa h1, hab h2])),
    if_neg (by rintro ⟨h1, -, -⟩; exact hta h1),
    if_pos h]

theorem wf_kf (x : Rat) : wf (K.kf x) = true := by
  simp [K.kf, wf]

theorem wf_ki (x : Int) : wf (K.ki x) = true := by
  simp [K.ki, wf]

theorem abs_one_of {t : Int} (h : t = 1 ∨ t = -1) : |t| = 1 := by
  rcases h with rfl | rfl <;> rfl

theorem abs_two_of {t : Int} (h : t = 2 ∨ t = -2) : |t| = 2 := by
  rcases h with rfl | rfl <;> rfl

theorem dyadic_ok_of_good (op_ii : Int → Int → Int) (op_ff : Rat → Rat → Rat)
    (op_fi : Rat → Int → Rat) (op_if : Int → Rat → Rat) {a b : K}
    (hwa : wf a = true) (hwb : wf b = true) (hta : a.t ≠ 0) (htb : b.t ≠ 0)
    (hgood : goodShape a b) :
    ∃ z, dyadic_scalar op_ii op_ff op_fi op_if a b = .ok z ∧
      z.n = max a.n b.n ∧ wf z = true := by
  have hpass : a.n = b.n ∨ a.n = 1 ∨ b.n = 1 := by
    rcases hgood with h | ⟨h, -⟩ | ⟨h, -⟩ <;> tauto
  have hinit := scalar_init_ok_of_wf hwa hwb hpass (fun h => absurd h.1 hta)
  unfold goodShape at hgood
  cases a with
  | klist t n v => exact absurd (wf_klist_iff.1 hwa).1 hta
  | ints ta na va =>
    obtain ⟨hto, hna, hatoma⟩ := wf_ints_iff.1 hwa
    have h1a : |ta| = 1 := abs_one_of hto
    have hta' : ta ≠ 0 := by omega
    cases b with
    | klist t n v => exact absurd (wf_klist_iff.1 hwb).1 htb
    | ints tb nb vb =>
      obtain ⟨htob, hnb, hatomb⟩ := wf_ints_iff.1 hwb
      have h1b : |tb| = 1 := abs_one_of htob
      have htb' : tb ≠ 0 := by omega
      simp only [K.t, K.n] at hinit hgood ⊢
      obtain ⟨out, hout, hlen⟩ := scalar_op_good va vb na nb op_ii hna hnb hgood
      refine ⟨_, by rw [dyadic_ii_reduce _ _ _ _ h1a h1b hinit, hout]; rfl, rfl, ?_⟩
      refine wf_ints_iff.2 ⟨?_, hlen.symm, ?_⟩
      · have hm : max |ta| |tb| = 1 := by rw [h1a, h1b]; exact max_self 1
        rcases @ztOf_cases _ _ na nb hta' htb' with hz | ⟨hz, -, -, -⟩
        · exact Or.inl (by rw [hz, hm])
        · exact Or.inr (by rw [hz, hm])
      · rcases @ztOf_cases _ _ na nb hta' htb' with hz | ⟨hz, hlta, hltb, -⟩
        · left
          rw [hz]
          have : (0:Int) < |ta| := by omega
          exact lt_of_lt_of_le this (le_max_left _ _)
        · right
          have h1 : na = 1 := hatoma.resolve_left (by omega)
          have h2 : nb = 1 := hatomb.resolve_left (by omega)
          rw [h1, h2]
          exact max_self 1
    | floats tb nb vb =>
      obtain ⟨htob, hnb, hatomb⟩ := wf_floats_iff.1 hwb
      have h2b : |tb| = 2 := abs_two_of htob
      have htb' : tb ≠ 0 := by omega
      simp only [K.t, K.n] at hinit hgood ⊢
      obtain ⟨out, hout, hlen⟩ := scalar_op_good (va.map K.i2f) vb na nb op_ff
        (by simpa using hna) hnb hgood
      refine ⟨_, by rw [dyadic_if_reduce _ _ _ _ h1a h2b hinit, hout]; rfl, rfl, ?_⟩
      refine wf_floats_iff.2 ⟨?_, hlen.symm, ?_⟩
      · have hm : max |ta| |tb| = 2 := by rw [h1a, h2b]; omega
        rcases @ztOf_cases _ _ na nb hta' htb' with hz | ⟨hz, -, -, -⟩
        · exact Or.inl (by rw [hz, hm])
        · exact Or.inr (by rw [hz, hm])
      · rcases @ztOf_cases _ _ na nb hta' htb' with hz | ⟨hz, hlta, hltb, -⟩
        · left
          rw [hz]
          have : (0:Int) < |ta| := by omega
          exact lt_of_lt_of_le this (le_max_left _ _)
        · right
          have h1 : na = 1 := hatoma.resolve_left (by omega)
          have h2 : nb = 1 := hatomb.resolve_left (by omega)
          rw [h1, h2]
          exact max_self 1
  | floats ta na va =>
    obtain ⟨hto, hna, hatoma⟩ := wf_floats_iff.1 hwa
    have h2a : |ta| = 2 := abs_two_of hto
    have hta' : ta ≠ 0 := by omega
    cases b with
    | klist t n v => exact absurd (wf_klist_iff.1 hwb).1 htb
    | ints tb nb vb =>
      obtain ⟨htob, hnb, hatomb⟩ := wf_ints_iff.1 hwb
      have h1b : |tb| = 1 := abs_one_of htob
      have htb' : tb ≠ 0 := by omega
      simp only [K.t, K.n] at hinit hgood ⊢
      obtain ⟨out, hout, hlen⟩ := scalar_op_good va (vb.map K.i2f) na nb op_ff
        hna (by simpa using hnb) hgood
      refine ⟨_, by rw [dyadic_fi_reduce _ _ _ _ h2a h1b hinit, hout]; rfl, rfl, ?_⟩
      refine wf_floats_iff.2 ⟨?_, hlen.symm, ?_⟩
      · have hm : max |ta| |tb| = 2 := by rw [h2a, h1b]; omega
        rcases @ztOf_cases _ _ na nb hta' htb' with hz | ⟨hz, -, -, -⟩
        · exact Or.inl (by rw [hz, hm])
        · exact Or.inr (by rw [hz, hm])
      · rcases @ztOf_cases _ _ na nb hta' htb' with hz | ⟨hz, hlta, hltb, -⟩
        · left
          rw [hz]
          have : (0:Int) < |ta| := by omega
          exact lt_of_lt_of_le this (le_max_left _ _)
        · right
          have h1 : na = 1 := hatoma.resolve_left (by omega)
          have h2 : nb = 1 := hatomb.resolve_left (by omega)
          rw [h1, h2]
          exact max_self 1
    | floats tb nb vb =>
      obtain ⟨htob, hnb, hatomb⟩ := wf_floats_iff.1 hwb
      have h2b : |tb| = 2 := abs_two_of htob
      have htb' : tb ≠ 0 := by omega
      simp only [K.t, K.n] at hinit hgood ⊢
      obtain ⟨out, hout, hlen⟩ := scalar_op_good va vb na nb op_ff hna hnb hgood
      refine ⟨_, by rw [dyadic_ff_reduce _ _ _ _ h2a h2b hinit, hout]; rfl, rfl, ?_⟩
      refine wf_floats_iff.2 ⟨?_, hlen.symm, ?_⟩
      · have hm : max |ta| |tb| = 2 := by rw [h2a, h2b]; exact max_self 2
        rcases @ztOf_cases _ _ na nb hta' htb' with hz | ⟨hz, -, -, -⟩
        · exact Or.inl (by rw [hz, hm])
        · exact Or.inr (by rw [hz, hm])
      · rcases @ztOf_cases _ _ na nb hta' htb' with hz | ⟨hz, hlta, hltb, -⟩
        · left
          rw [hz]
          have : (0:Int) < |ta| := by omega
          exact lt_of_lt_of_le this (le_max_left _ _)
        · right
          have h1 : na = 1 := hatoma.resolve_left (by omega)
          have h2 : nb = 1 := hatomb.resolve_left (by omega)
          rw [h1, h2]
          exact max_self 1

theorem dyadic_err_of_bad (op_ii : Int → Int → Int) (op_ff : Rat → Rat → Rat)
    (op_fi : Rat → Int → Rat) (op_if : Int → Rat → Rat) {a b : K}
    (hwa : wf a = true) (hwb : wf b = true) (hta : a.t ≠ 0) (htb : b.t ≠ 0)
    (hbad : ¬goodShape a b) :
    ∃ e, dyadic_scalar op_ii op_ff op_fi op_if a b = .error e := by
  obtain ⟨-, hna0, -⟩ := wf_bounds hwa
  obtain ⟨-, hnb0, -⟩ := wf_bounds hwb
  unfold goodShape at hbad
  have hcases : (a.n ≠ b.n ∧ a.n ≠ 1 ∧ b.n ≠ 1) ∨
      ((a.n = 1 ∧ b.n = 0) ∨ (a.n = 0 ∧ b.n = 1)) := by omega
  rcases hcases with h | h
  · refine ⟨.shapeError, ?_⟩
    unfold dyadic_scalar
    rw [scalar_init_shape_err hwa hwb hta h]
    rfl
  · have hpass : a.n = b.n ∨ a.n = 1 ∨ b.n = 1 := by omega
    have hinit := scalar_init_ok_of_wf hwa hwb hpass (fun hh => absurd hh.1 hta)
    refine ⟨.indexOOB, ?_⟩
    cases a with
    | klist t n v => exact absurd (wf_klist_iff.1 hwa).1 hta
    | ints ta na va =>
      obtain ⟨hto, hna, -⟩ := wf_ints_iff.1 hwa
      have h1a : |ta| = 1 := abs_one_of hto
      cases b with
      | klist t n v => exact absurd (wf_klist_iff.1 hwb).1 htb
      | ints tb nb vb =>
        obtain ⟨htob, hnb, -⟩ := wf_ints_iff.1 hwb
        simp only [K.t, K.n] at hinit h
        rw [dyadic_ii_reduce _ _ _ _ h1a (abs_one_of htob) hinit,
          scalar_op_bad va vb na nb op_ii hna hnb h]
        rfl
      | floats tb nb vb =>
        obtain ⟨htob, hnb, -⟩ := wf_floats_iff.1 hwb
        simp only [K.t, K.n] at hinit h
        rw [dyadic_if_reduce _ _ _ _ h1a (abs_two_of htob) hinit,
          scalar_op_bad (va.map K.i2f) vb na nb op_ff (by simpa using hna) hnb h]
        rfl
    | floats ta na va =>
      obtain ⟨hto, hna, -⟩ := wf_floats_iff.1 hwa
      have h2a : |ta| = 2 := abs_two_of hto
      cases b with
      | klist t n v => exact absurd (wf_klist_iff.1 hwb).1 htb
      | ints tb nb vb =>
        obtain ⟨htob, hnb, -⟩ := wf_ints_iff.1 hwb
        simp only [K.t, K.n] at hinit h
        rw [dyadic_fi_reduce _ _ _ _ h2a (abs_one_of htob) hinit,
          scalar_op_bad va (vb.map K.i2f) na nb op_ff hna (by simpa using hnb) h]
        rfl
      | floats tb nb vb =>
        obtain ⟨htob, hnb, -⟩ := wf_floats_iff.1 hwb
        simp only [K.t, K.n] at hinit h
        rw [dyadic_ff_reduce _ _ _ _ h2a (abs_two_of htob) hinit,
          scalar_op_bad va vb na nb op_ff hna hnb h]
        rfl

theorem dot_ok_of_good {a b : K}
    (hwa : wf a = true) (hwb : wf b = true) (hta : a.t ≠ 0) (htb : b.t ≠ 0)
    (hgood : goodShape a b) :
    ∃ z, dot a b = .ok z ∧ wf z = true ∧ z.n = 1 := by
  have hpass : a.n = b.n ∨ a.n = 1 ∨ b.n = 1 := by
    rcases hgood with h | ⟨h, -⟩ | ⟨h, -⟩ <;> tauto
  have hinit := scalar_init_ok_of_wf hwa hwb hpass (fun h => absurd h.1 hta)
  unfold goodShape at hgood
  cases a with
  | klist t n v => exact absurd (wf_klist_iff.1 hwa).1 hta
  | ints ta na va =>
    obtain ⟨hto, hna, -⟩ := wf_ints_iff.1 hwa
    have h1a : |ta| = 1 := abs_one_of hto
    cases b with
    | klist t n v => exact absurd (wf_klist_iff.1 hwb).1 htb
    | ints tb nb vb =>
      obtain ⟨htob, hnb, -⟩ := wf_ints_iff.1 hwb
      simp only [K.t, K.n] at hinit hgood
      obtain ⟨acc, hacc⟩ := dotCase_good va vb na nb (fun x y => x * y) hna hnb hgood
      exact ⟨_, by rw [dot_ii_reduce h1a (abs_one_of htob) hinit, hacc]; rfl, wf_ki acc, rfl⟩
    | floats tb nb vb =>
      obtain ⟨htob, hnb, -⟩ := wf_floats_iff.1 hwb
      simp only [K.t, K.n] at hinit hgood
      obtain ⟨acc, hacc⟩ := dotCase_good va vb na nb (fun x y => K.i2f x * y) hna hnb hgood
      exact ⟨_, by rw [dot_if_reduce h1a (abs_two_of htob) hinit, hacc]; rfl, wf_kf acc, rfl⟩
  | floats ta na va =>
    obtain ⟨hto, hna, -⟩ := wf_floats_iff.1 hwa
    have h2a : |ta| = 2 := abs_two_of hto
    cases b with
    | klist t n v => exact absurd (wf_klist_iff.1 hwb).1 htb
    | ints tb nb vb =>
      obtain ⟨htob, hnb, -⟩ := wf_ints_iff.1 hwb
      simp only [K.t, K.n] at hinit hgood
      obtain ⟨acc, hacc⟩ := dotCase_good va vb na nb (fun x y => x * K.i2f y) hna hnb hgood
      exact ⟨_, by rw [dot_fi_reduce h2a (abs_one_of htob) hinit, hacc]; rfl, wf_kf acc, rfl⟩
    | floats tb nb vb =>
      obtain ⟨htob, hnb, -⟩ := wf_floats_iff.1 hwb
      simp only [K.t, K.n] at hinit hgood
      obtain ⟨acc, hacc⟩ := dotCase_good va vb na nb (fun x y => x * y) hna hnb hgood
      exact ⟨_, by rw [dot_ff_reduce h2a (abs_two_of htob) hinit, hacc]; rfl, wf_kf acc, rfl⟩

theorem dot_err_of_bad {a b : K}
    (hwa : wf a = true) (hwb : wf b = true) (hta : a.t ≠ 0) (htb : b.t ≠ 0)
    (hbad : ¬goodShape a b) :
    ∃ e, dot a b = .error e := by
  obtain ⟨-, hna0, -⟩ := wf_bounds hwa
  obtain ⟨-, hnb0, -⟩ := wf_bounds hwb
  unfold goodShape at hbad
  have hcases : (a.n ≠ b.n ∧ a.n ≠ 1 ∧ b.n ≠ 1) ∨
      ((a.n = 1 ∧ b.n = 0) ∨ (a.n = 0 ∧ b.n = 1)) := by omega
  rcases hcases with h | h
  · refine ⟨.shapeError, ?_⟩
    unfold dot
    rw [scalar_init_shape_err hwa hwb hta h]
    rfl
  · have hpass : a.n = b.n ∨ a.n = 1 ∨ b.n = 1 := by omega
    have hinit := scalar_init_ok_of_wf hwa hwb hpass (fun hh => absurd hh.1 hta)
    refine ⟨.indexOOB, ?_⟩
    cases a with
    | klist t n v => exact absurd (wf_klist_iff.1 hwa).1 hta
    | ints ta na va =>
      obtain ⟨hto, hna, -⟩ := wf_ints_iff.1 hwa
      have h1a : |ta| = 1 := abs_one_of hto
      cases b with
      | klist t n v => exact absurd (wf_klist_iff.1 hwb).1 htb
      | ints tb nb vb =>
        obtain ⟨htob, hnb, -⟩ := wf_ints_iff.1 hwb
        simp only [K.t, K.n] at hinit h
        rw [dot_ii_reduce h1a (abs_one_of htob) hinit,
          dotCase_bad va vb na nb (fun x y => x * y) hna hnb h]
        rfl
      | floats tb nb vb =>
        obtain ⟨htob, hnb, -⟩ := wf_floats_iff.1 hwb
        simp only [K.t, K.n] at hinit h
        rw [dot_if_reduce h1a (abs_two_of htob) hinit,
          dotCase_bad va vb na nb (fun x y => K.i2f x * y) hna hnb h]
        rfl
    | floats ta na va =>
      obtain ⟨hto, hna, -⟩ := wf_floats_iff.1 hwa
      have h2a : |ta| = 2 := abs_two_of hto
      cases b with
      | klist t n v => exact absurd (wf_klist_iff.1 hwb).1 htb
      | ints tb nb vb =>
        obtain ⟨htob, hnb, -⟩ := wf_ints_iff.1 hwb
        simp only [K.t, K.n] at hinit h
        rw [dot_fi_reduce h2a (abs_one_of htob) hinit,
          dotCase_bad va vb na nb (fun x y => x * K.i2f y) hna hnb h]
        rfl
      | floats tb nb vb =>
        obtain ⟨htob, hnb, -⟩ := wf_floats_iff.1 hwb
        simp only [K.t, K.n] at hinit h
        rw [dot_ff_reduce h2a (abs_two_of htob) hinit,
          dotCase_bad va vb na nb (fun x y => x * y) hna hnb h]
        rfl

/-! ### The general-list branch -/

theorem numeric_conds_false {at' bt : Int} (h : at' = 0 ∨ bt = 0) :
    ¬(|at'| = 2 ∧ |bt| = 2) ∧ ¬(|at'| = 2 ∧ |bt| = 1) ∧
    ¬(|at'| = 1 ∧ |bt| = 2) ∧ ¬(|at'| = 1 ∧ |bt| = 1) := by
  rcases h with h | h <;> rw [h] <;> simp <;> omega

theorem dyadic_list_result (op_ii : Int → Int → Int) (op_ff : Rat → Rat → Rat)
    (op_fi : Rat → Int → Rat) (op_if : Int → Rat → Rat) (a b : K) (s : ScalarInit) :
    (∃ e, dyadic_list op_ii op_ff op_fi op_if a b s = .error e) ∨
    (∃ v, dyadic_list op_ii op_ff op_fi op_if a b s = .ok (K.from_list v)) := by
  cases a with
  | klist ta na la =>
    cases b with
    | klist tb nb lb =>
      unfold dyadic_list
      split_ifs with g1 g2 g3
      · cases hm : dyadicMapLeft op_ii op_ff op_fi op_if la (K.klist tb nb lb) with
        | error e => exact Or.inl ⟨e, rfl⟩
        | ok zs => exact Or.inr ⟨zs, rfl⟩
      · cases hm : dyadicMapRight op_ii op_ff op_fi op_if (K.klist ta na la) lb with
        | error e => exact Or.inl ⟨e, rfl⟩
        | ok zs => exact Or.inr ⟨zs, rfl⟩
      · exact Or.inl ⟨.recLenMismatch, rfl⟩
      · cases hm : dyadicZip op_ii op_ff op_fi op_if la lb with
        | error e => exact Or.inl ⟨e, rfl⟩
        | ok zs => exact Or.inr ⟨zs, rfl⟩
    | ints tb nb vb =>
      unfold dyadic_list
      split_ifs with g1
      · cases hm : dyadicMapLeft op_ii op_ff op_fi op_if la (K.ints tb nb vb) with
        | error e => exact Or.inl ⟨e, rfl⟩
        | ok zs => exact Or.inr ⟨zs, rfl⟩
      · exact Or.inl ⟨.recUnreachable, rfl⟩
    | floats tb nb vb =>
      unfold dyadic_list
      split_ifs with g1
      · cases hm : dyadicMapLeft op_ii op_ff op_fi op_if la (K.floats tb nb vb) with
        | error e => exact Or.inl ⟨e, rfl⟩
        | ok zs => exact Or.inr ⟨zs, rfl⟩
      · exact Or.inl ⟨.recUnreachable, rfl⟩
  | ints ta na va =>
    cases b with
    | klist tb nb lb =>
      unfold dyadic_list
      split_ifs with g1
      · cases hm : dyadicMapRight op_ii op_ff op_fi op_if (K.ints ta na va) lb with
        | error e => exact Or.inl ⟨e, rfl⟩
        | ok zs => exact Or.inr ⟨zs, rfl⟩
      · exact Or.inl ⟨.recUnreachable, rfl⟩
    | ints tb nb vb => exact Or.inl ⟨.recUnreachable, by unfold dyadic_list; rfl⟩
    | floats tb nb vb => exact Or.inl ⟨.recUnreachable, by unfold dyadic_list; rfl⟩
  | floats ta na va =>
    cases b with
    | klist tb nb lb =>
      unfold dyadic_list
      split_ifs with g1
      · cases hm : dyadicMapRight op_ii op_ff op_fi op_if (K.floats ta na va) lb with
        | error e => exact Or.inl ⟨e, rfl⟩
        | ok zs => exact Or.inr ⟨zs, rfl⟩
      · exact Or.inl ⟨.recUnreachable, rfl⟩
    | ints tb nb vb => exact Or.inl ⟨.recUnreachable, by unfold dyadic_list; rfl⟩
    | floats tb nb vb => exact Or.inl ⟨.recUnreachable, by unfold dyadic_list; rfl⟩

theorem dyadic_list_shape (op_ii : Int → Int → Int) (op_ff : Rat → Rat → Rat)
    (op_fi : Rat → Int → Rat) (op_if : Int → Rat → Rat) {a b : K}
    (h : a.t = 0 ∨ b.t = 0) :
    (∃ e, dyadic_scalar op_ii op_ff op_fi op_if a b = .error e) ∨
    (∃ v, dyadic_scalar op_ii op_ff op_fi op_if a b = .ok (K.from_list v)) := by
  unfold dyadic_scalar
  cases hs : scalar_init a b with
  | error e => exact Or.inl ⟨e, rfl⟩
  | ok s =>
    obtain ⟨-, -, -, -, rfl⟩ := scalar_init_ok_iff.1 hs
    simp only [ok_bind]
    dsimp only
    have hc := numeric_conds_false h
    rw [if_neg hc.1, if_neg hc.2.1, if_neg hc.2.2.1, if_neg hc.2.2.2, if_pos h]
    exact dyadic_list_result op_ii op_ff op_fi op_if a b _

theorem dot_list_err {a b : K} (h : a.t = 0 ∨ b.t = 0) :
    ∃ e, dot a b = .error e := by
  unfold dot
  cases hs : scalar_init a b with
  | error e => exact ⟨e, rfl⟩
  | ok s =>
    obtain ⟨-, -, -, -, rfl⟩ := scalar_init_ok_iff.1 hs
    simp only [ok_bind]
    dsimp only
    have hc := numeric_conds_false h
    rw [if_neg hc.1, if_neg hc.2.1, if_neg hc.2.2.1, if_neg hc.2.2.2,
      if_pos (by rcases h with h | h <;> rw [h] <;> simp)]
    rcases dyadic_list_shape (fun x y => x * y) (fun x y => x * y)
        (fun x y => x * K.i2f y) (fun x y => K.i2f x * y) h with ⟨e, he⟩ | ⟨v, hv⟩
    · exact ⟨e, by rw [show times a b = .error e from he]; rfl⟩
    · exact ⟨.sumList, by rw [show times a b = .ok (K.from_list v) from hv]; rfl⟩

/-! ### Well-formedness preservation (including list recursion) -/

theorem sizeOf_K_pos (a : K) : 0 < sizeOf a := by
  cases a <;> simp_arith

theorem dyadicMapLeft_wf (op_ii : Int → Int → Int) (op_ff : Rat → Rat → Rat)
    (op_fi : Rat → Int → Rat) (op_if : Int → Rat → Rat) :
    ∀ (la : List K) (b : K),
      (∀ x ∈ la, ∀ z, dyadic_scalar op_ii op_ff op_fi op_if x b = .ok z → wf z = true) →
      ∀ out, dyadicMapLeft op_ii op_ff op_fi op_if la b = .ok out →
        ∀ z ∈ out, wf z = true := by
  intro la
  induction la with
  | nil =>
    intro b _ out hout z hz
    unfold dyadicMapLeft at hout
    cases hout
    simp at hz
  | cons x xs ih =>
    intro b hrec out hout z hz
    unfold dyadicMapLeft at hout
    obtain ⟨z1, hz1, h2⟩ := bind_ok_inv hout
    obtain ⟨zs, hzs, h3⟩ := bind_ok_inv h2
    simp at h3
    subst h3
    rcases List.mem_cons.1 hz with rfl | hz
    · exact hrec x (by simp) z hz1
    · exact ih b (fun y hy => hrec y (by simp [hy])) zs hzs z hz

theorem dyadicMapRight_wf (op_ii : Int → Int → Int) (op_ff : Rat → Rat → Rat)
    (op_fi : Rat → Int → Rat) (op_if : Int → Rat → Rat) :
    ∀ (lb : List K) (a : K),
      (∀ y ∈ lb, ∀ z, dyadic_scalar op_ii op_ff op_fi op_if a y = .ok z → wf z = true) →
      ∀ out, dyadicMapRight op_ii op_ff op_fi op_if a lb = .ok out →
        ∀ z ∈ out, wf z = true := by
  intro lb
  induction lb with
  | nil =>
    intro a _ out hout z hz
    unfold dyadicMapRight at hout
    cases hout
    simp at hz
  | cons y ys ih =>
    intro a hrec out hout z hz
    unfold dyadicMapRight at hout
    obtain ⟨z1, hz1, h2⟩ := bind_ok_inv hout
    obtain ⟨zs, hzs, h3⟩ := bind_ok_inv h2
    simp at h3
    subst h3
    rcases List.mem_cons.1 hz with rfl | hz
    · exact hrec y (by simp) z hz1
    · exact ih a (fun w hw => hrec w (by simp [hw])) zs hzs z hz

theorem dyadicZip_wf (op_ii : Int → Int → Int) (op_ff : Rat → Rat → Rat)
    (op_fi : Rat → Int → Rat) (op_if : Int → Rat → Rat) :
    ∀ (la lb : List K),
      (∀ x ∈ la, ∀ y ∈ lb, ∀ z, dyadic_scalar op_ii op_ff op_fi op_if x y = .ok z →
        wf z = true) →
      ∀ out, dyadicZip op_ii op_ff op_fi op_if la lb = .ok out →
        ∀ z ∈ out, wf z = true := by
  intro la
  induction la with
  | nil =>
    intro lb _ out hout z hz
    unfold dyadicZip at hout
    cases hout
    simp at hz
  | cons x xs ih =>
    intro lb hrec out hout z hz
    cases lb with
    | nil =>
      unfold dyadicZip at hout
      cases hout
      simp at hz
    | cons y ys =>
      unfold dyadicZip at hout
      obtain ⟨z1, hz1, h2⟩ := bind_ok_inv hout
      obtain ⟨zs, hzs, h3⟩ := bind_ok_inv h2
      simp at h3
      subst h3
      rcases List.mem_cons.1 hz with rfl | hz
      · exact hrec x (by simp) y (by simp) z hz1
      · exact ih ys (fun u hu w hw => hrec u (by simp [hu]) w (by simp [hw])) zs hzs z hz

theorem dyadic_wf_aux (op_ii : Int → Int → Int) (op_ff : Rat → Rat → Rat)
    (op_fi : Rat → Int → Rat) (op_if : Int → Rat → Rat) :
    ∀ (N : Nat) (a b : K), sizeOf a + sizeOf b ≤ N → wf a = true → wf b = true →
      ∀ z, dyadic_scalar op_ii op_ff op_fi op_if a b = .ok z → wf z = true := by
  intro N
  induction N with
  | zero =>
    intro a b hsz
    have := sizeOf_K_pos a
    have := sizeOf_K_pos b
    omega
  | succ N ih =>
    intro a b hsz hwa hwb z hz
    by_cases hnum : a.t ≠ 0 ∧ b.t ≠ 0
    · by_cases hgood : goodShape a b
      · obtain ⟨z', hz', -, hwf'⟩ :=
          dyadic_ok_of_good op_ii op_ff op_fi op_if hwa hwb hnum.1 hnum.2 hgood
        rw [hz'] at hz
        cases hz
        exact hwf'
      · obtain ⟨e, he⟩ :=
          dyadic_err_of_bad op_ii op_ff op_fi op_if hwa hwb hnum.1 hnum.2 hgood
        rw [he] at hz
        exact Except.noConfusion hz
    · -- list branch: at least one operand has tag 0
      have hlist : a.t = 0 ∨ b.t = 0 := by tauto
      unfold dyadic_scalar at hz
      cases hs : scalar_init a b with
      | error e => rw [hs] at hz; exact Except.noConfusion hz
      | ok s =>
        obtain ⟨-, -, -, -, rfl⟩ := scalar_init_ok_iff.1 hs
        rw [hs] at hz
        simp only [ok_bind] at hz
        dsimp only at hz
        have hc := numeric_conds_false hlist
        rw [if_neg hc.1, if_neg hc.2.1, if_neg hc.2.2.1, if_neg hc.2.2.2,
          if_pos hlist] at hz
        -- now hz : dyadic_list ... a b ⟨...⟩ = .ok z
        cases a with
        | ints ta na va =>
          cases b with
          | klist tb nb lb =>
            obtain ⟨htb0, hnb, hwfl⟩ := wf_klist_iff.1 hwb
            have hta0 : ta ≠ 0 := by
              rcases (wf_ints_iff.1 hwa).1 with rfl | rfl <;> omega
            unfold dyadic_list at hz
            rw [if_pos ⟨hta0, htb0⟩] at hz
            obtain ⟨zs, hzs, h2⟩ := bind_ok_inv hz
            simp at h2
            subst h2
            refine wf_klist_iff.2 ⟨rfl, rfl, ?_⟩
            refine dyadicMapRight_wf op_ii op_ff op_fi op_if lb _ ?_ zs hzs
            intro y hy w hw
            have h1 := List.sizeOf_lt_of_mem hy
            have h2 : sizeOf (K.klist tb nb lb) = 1 + sizeOf tb + sizeOf nb + sizeOf lb := by simp
            exact ih _ y (by omega) hwa (hwfl y hy) w hw
          | ints tb nb vb =>
            simp only [K.t] at hlist
            rcases (wf_ints_iff.1 hwa).1 with rfl | rfl <;>
              rcases (wf_ints_iff.1 hwb).1 with rfl | rfl <;> omega
          | floats tb nb vb =>
            simp only [K.t] at hlist
            rcases (wf_ints_iff.1 hwa).1 with rfl | rfl <;>
              rcases (wf_floats_iff.1 hwb).1 with rfl | rfl <;> omega
        | floats ta na va =>
          cases b with
          | klist tb nb lb =>
            obtain ⟨htb0, hnb, hwfl⟩ := wf_klist_iff.1 hwb
            have hta0 : ta ≠ 0 := by
              rcases (wf_floats_iff.1 hwa).1 with rfl | rfl <;> omega
            unfold dyadic_list at hz
            rw [if_pos ⟨hta0, htb0⟩] at hz
            obtain ⟨zs, hzs, h2⟩ := bind_ok_inv hz
            simp at h2
            subst h2
            refine wf_klist_iff.2 ⟨rfl, rfl, ?_⟩
            refine dyadicMapRight_wf op_ii op_ff op_fi op_if lb _ ?_ zs hzs
            intro y hy w hw
            have h1 := List.sizeOf_lt_of_mem hy
            have h2 : sizeOf (K.klist tb nb lb) = 1 + sizeOf tb + sizeOf nb + sizeOf lb := by simp
            exact ih _ y (by omega) hwa (hwfl y hy) w hw
          | ints tb nb vb =>
            simp only [K.t] at hlist
            rcases (wf_floats_iff.1 hwa).1 with rfl | rfl <;>
              rcases (wf_ints_iff.1 hwb).1 with rfl | rfl <;> omega
          | floats tb nb vb =>
            simp only [K.t] at hlist
            rcases (wf_floats_iff.1 hwa).1 with rfl | rfl <;>
              rcases (wf_floats_iff.1 hwb).1 with rfl | rfl <;> omega
        | klist ta na la =>
          obtain ⟨hta0, hna, hwfla⟩ := wf_klist_iff.1 hwa
          have hszla : sizeOf (K.klist ta na la) = 1 + sizeOf ta + sizeOf na + sizeOf la := by simp
          cases b with
          | klist tb nb lb =>
            obtain ⟨htb0, hnb, hwflb⟩ := wf_klist_iff.1 hwb
            have hszlb : sizeOf (K.klist tb nb lb) = 1 + sizeOf tb + sizeOf nb + sizeOf lb := by simp
            unfold dyadic_list at hz
            rw [if_neg (by rintro ⟨-, hnegg⟩; exact hnegg htb0),
              if_neg (by rintro ⟨hnegg, -⟩; exact hnegg hta0)] at hz
            split_ifs at hz with hlen
            obtain ⟨zs, hzs, h2⟩ := bind_ok_inv hz
            simp at h2
            subst h2
            refine wf_klist_iff.2 ⟨rfl, rfl, ?_⟩
            refine dyadicZip_wf op_ii op_ff op_fi op_if la lb ?_ zs hzs
            intro x hx y hy w hw
            have h1 := List.sizeOf_lt_of_mem hx
            have h2 := List.sizeOf_lt_of_mem hy
            exact ih x y (by omega) (hwfla x hx) (hwflb y hy) w hw
          | ints tb nb vb =>
            have htb0 : tb ≠ 0 := by
              rcases (wf_ints_iff.1 hwb).1 with rfl | rfl <;> omega
            unfold dyadic_list at hz
            rw [if_pos ⟨hta0, htb0⟩] at hz
            obtain ⟨zs, hzs, h2⟩ := bind_ok_inv hz
            simp at h2
            subst h2
            refine wf_klist_iff.2 ⟨rfl, rfl, ?_⟩
            refine dyadicMapLeft_wf op_ii op_ff op_fi op_if la _ ?_ zs hzs
            intro x hx w hw
            have h1 := List.sizeOf_lt_of_mem hx
            exact ih x _ (by omega) (hwfla x hx) hwb w hw
          | floats tb nb vb =>
            have htb0 : tb ≠ 0 := by
              rcases (wf_floats_iff.1 hwb).1 with rfl | rfl <;> omega
            unfold dyadic_list at hz
            rw [if_pos ⟨hta0, htb0⟩] at hz
            obtain ⟨zs, hzs, h2⟩ := bind_ok_inv hz
            simp at h2
            subst h2
            refine wf_klist_iff.2 ⟨rfl, rfl, ?_⟩
            refine dyadicMapLeft_wf op_ii op_ff op_fi op_if la _ ?_ zs hzs
            intro x hx w hw
            have h1 := List.sizeOf_lt_of_mem hx
            exact ih x _ (by omega) (hwfla x hx) hwb w hw

theorem dyadic_wf (op_ii : Int → Int → Int) (op_ff : Rat → Rat → Rat)
    (op_fi : Rat → Int → Rat) (op_if : Int → Rat → Rat) {a b z : K}
    (hwa : wf a = true) (hwb : wf b = true)
    (h : dyadic_scalar op_ii op_ff op_fi op_if a b = .ok z) : wf z = true :=
  dyadic_wf_aux op_ii op_ff op_fi op_if (sizeOf a + sizeOf b) a b le_rfl hwa hwb z h

theorem dot_wf {a b z : K} (hwa : wf a = true) (hwb : wf b = true)
    (h : dot a b = .ok z) : wf z = true := by
  by_cases hnum : a.t ≠ 0 ∧ b.t ≠ 0
  · by_cases hgood : goodShape a b
    · obtain ⟨z', hz', hwf', -⟩ := dot_ok_of_good hwa hwb hnum.1 hnum.2 hgood
      rw [hz'] at h
      cases h
      exact hwf'
    · obtain ⟨e, he⟩ := dot_err_of_bad hwa hwb hnum.1 hnum.2 hgood
      rw [he] at h
      exact Except.noConfusion h
  · obtain ⟨e, he⟩ := @dot_list_err a b (by tauto)
    rw [he] at h
    exact Except.noConfusion h

/-! ### Small helpers for the claim theorems -/

theorem wf_from_floats (v : List Rat) : wf (K.from_floats v) = true :=
  wf_floats_iff.2 ⟨Or.inl rfl, rfl, Or.inl (by norm_num)⟩

theorem wf_from_ints (v : List Int) : wf (K.from_ints v) = true :=
  wf_ints_iff.2 ⟨Or.inl rfl, rfl, Or.inl (by norm_num)⟩

theorem ztOf_not_atom {at' bt an bn : Int} (hta : at' ≠ 0) (htb : bt ≠ 0)
    (h : ¬(at' < 0 ∧ bt < 0) ∨ 1 < max an bn) :
    ztOf at' bt an bn = max |at'| |bt| := by
  rcases @ztOf_cases at' bt an bn hta htb with hz | ⟨hz, h1, h2, h3⟩
  · exact hz
  · rcases h with h | h
    · exact absurd ⟨h1, h2⟩ h
    · exact absurd h h3

theorem sumf_eq_foldl_map {γ : Type} [AddZeroClass γ] (n : Nat) (f : Nat → γ) :
    ((List.range n).map f).foldl (· + ·) 0 = sumf n f := by
  rw [List.foldl_map]
  rfl

theorem range_map_getD {α β : Type} (v : List α) (d : α) (f : α → β) :
    (List.range v.length).map (fun i => f (v.getD i d)) = v.map f := by
  apply List.ext_getElem
  · simp
  · intro i h1 h2
    simp only [List.getElem_map, List.getElem_range]
    rw [List.getD_eq_getElem v d (by simpa using h2)]

theorem isOk_iff_exists {α : Type} (m : Except KErr α) :
    m.isOk = true ↔ ∃ x, m = .ok x := by
  cases m with
  | ok x => simp [Except.isOk, Except.toBool]
  | error e => simp [Except.isOk, Except.toBool]

/-! ### Claim theorems: the dispatch engine -/

/-- Claim C10: `dot` on two empty float arrays returns the float atom `0.0`,
and on two empty integer arrays the integer atom `0`: the empty
accumulation succeeds and yields the additive identity. -/
theorem dot_empty_yields_zero_atom (a b : K)
    (hwa : wf a = true) (hwb : wf b = true) (hna : a.n = 0) (hnb : b.n = 0) :
    (a.t = 2 → b.t = 2 → dot a b = .ok (K.kf 0)) ∧
    (a.t = 1 → b.t = 1 → dot a b = .ok (K.ki 0)) := by
  constructor
  · intro hta htb
    obtain rfl : a = K.floats 2 0 [] := by
      cases a with
      | ints t n v => simp only [K.t] at hta; rcases (wf_ints_iff.1 hwa).1 with rfl | rfl <;> omega
      | klist t n v => simp only [K.t] at hta; have := (wf_klist_iff.1 hwa).1; omega
      | floats t n v =>
        simp only [K.t] at hta
        simp only [K.n] at hna
        obtain ⟨-, hlen, -⟩ := wf_floats_iff.1 hwa
        obtain rfl : v = [] := List.length_eq_zero.1 (by omega)
        rw [hta, hna]
    obtain rfl : b = K.floats 2 0 [] := by
      cases b with
      | ints t n v => simp only [K.t] at htb; rcases (wf_ints_iff.1 hwb).1 with rfl | rfl <;> omega
      | klist t n v => simp only [K.t] at htb; have := (wf_klist_iff.1 hwb).1; omega
      | floats t n v =>
        simp only [K.t] at htb
        simp only [K.n] at hnb
        obtain ⟨-, hlen, -⟩ := wf_floats_iff.1 hwb
        obtain rfl : v = [] := List.length_eq_zero.1 (by omega)
        rw [htb, hnb]
    rfl
  · intro hta htb
    obtain rfl : a = K.ints 1 0 [] := by
      cases a with
      | floats t n v => simp only [K.t] at hta; rcases (wf_floats_iff.1 hwa).1 with rfl | rfl <;> omega
      | klist t n v => simp only [K.t] at hta; have := (wf_klist_iff.1 hwa).1; omega
      | ints t n v =>
        simp only [K.t] at hta
        simp only [K.n] at hna
        obtain ⟨-, hlen, -⟩ := wf_ints_iff.1 hwa
        obtain rfl : v = [] := List.length_eq_zero.1 (by omega)
        rw [hta, hna]
    obtain rfl : b = K.ints 1 0 [] := by
      cases b with
      | floats t n v => simp only [K.t] at htb; rcases (wf_floats_iff.1 hwb).1 with rfl | rfl <;> omega
      | klist t n v => simp only [K.t] at htb; have := (wf_klist_iff.1 hwb).1; omega
      | ints t n v =>
        simp only [K.t] at htb
        simp only [K.n] at hnb
        obtain ⟨-, hlen, -⟩ := wf_ints_iff.1 hwb
        obtain rfl : v = [] := List.length_eq_zero.1 (by omega)
        rw [htb, hnb]
    rfl

/-- Witness for C10 at the two concrete empty arrays. -/
theorem dot_empty_yields_zero_atom_w :
    (wf (K.from_floats []) = true ∧ (K.from_floats []).n = 0) ∧
    dot (K.from_floats []) (K.from_floats []) = .ok (K.kf 0) ∧
    dot (K.from_ints []) (K.from_ints []) = .ok (K.ki 0) :=
  ⟨⟨by decide, by decide⟩,
    (dot_empty_yields_zero_atom (K.from_floats []) (K.from_floats [])
      (by decide) (by decide) (by decide) (by decide)).1 rfl rfl,
    (dot_empty_yields_zero_atom (K.from_ints []) (K.from_ints [])
      (by decide) (by decide) (by decide) (by decide)).2 rfl rfl⟩

/-- Claim C1: for equal-length float arrays, `dot(a,b)` is a float atom
whose value is the left-to-right sum of the elements of `times(a,b)` —
the fused accumulation equals materialise-then-sum, with the same
accumulation order (`foldl` from `0`). -/
theorem dot_eq_sum_times (va vb : List Rat) (h : va.length = vb.length) :
    ∃ zs : List Rat,
      times (K.from_floats va) (K.from_floats vb) =
        .ok (K.floats 2 (va.length : Int) zs) ∧
      dot (K.from_floats va) (K.from_floats vb) =
        .ok (K.kf (zs.foldl (· + ·) 0)) := by
  have hinit := scalar_init_ok_of_wf (wf_from_floats va) (wf_from_floats vb)
    (Or.inl (by simp only [K.from_floats, K.n]; exact_mod_cast h))
    (by simp [K.from_floats, K.t])
  simp only [K.from_floats, K.t, K.n] at hinit
  have hzt : ztOf 2 2 (va.length : Int) (vb.length : Int) = 2 := by
    rw [ztOf_not_atom (by norm_num) (by norm_num) (Or.inl (by norm_num))]
    decide
  have hmax : max (va.length : Int) (vb.length : Int) = (va.length : Int) := by
    rw [← h, max_self]
  refine ⟨(List.range va.length).map (fun i => va.getD i 0 * vb.getD i 0), ?_, ?_⟩
  · unfold times
    rw [show K.from_floats va = K.floats 2 (va.length : Int) va from rfl,
      show K.from_floats vb = K.floats 2 (vb.length : Int) vb from rfl,
      dyadic_ff_reduce _ _ _ _ (by decide) (by decide) hinit,
      scalar_op_eval_eq va vb _ _ _ _ 0 rfl rfl rfl h]
    simp only [Except.bind]
    rw [hzt, hmax]
  · rw [show K.from_floats va = K.floats 2 (va.length : Int) va from rfl,
      show K.from_floats vb = K.floats 2 (vb.length : Int) vb from rfl,
      dot_ff_reduce (by decide) (by decide) hinit,
      dotCase_eval_eq va vb _ _ _ _ 0 0 rfl rfl rfl h]
    simp only [Except.bind]
    rw [sumf_eq_foldl_map]

/-- Witness for C1 at `[1,2] · [3,4]`. -/
theorem dot_eq_sum_times_w :
    ([1, 2] : List Rat).length = ([3, 4] : List Rat).length ∧
    ∃ zs : List Rat,
      times (K.from_floats [1, 2]) (K.from_floats [3, 4]) =
        .ok (K.floats 2 (([1, 2] : List Rat).length : Int) zs) ∧
      dot (K.from_floats [1, 2]) (K.from_floats [3, 4]) =
        .ok (K.kf (zs.foldl (· + ·) 0)) :=
  ⟨rfl, dot_eq_sum_times [1, 2] [3, 4] rfl⟩

/-- Claim C6: `dot` on an integer array and a float array of the same
length returns a float atom equal to `sum(i2f(a[i]) * b[i])`, accumulated
left to right from `0`. -/
theorem dot_int_float_promotes (vi : List Int) (vf : List Rat)
    (h : vi.length = vf.length) :
    dot (K.from_ints vi) (K.from_floats vf) =
      .ok (K.kf (sumf vi.length fun i => K.i2f (vi.getD i 0) * vf.getD i 0)) := by
  have hinit := scalar_init_ok_of_wf (wf_from_ints vi) (wf_from_floats vf)
    (Or.inl (by simp only [K.from_ints, K.from_floats, K.n]; exact_mod_cast h))
    (by simp [K.from_ints, K.t])
  simp only [K.from_ints, K.from_floats, K.t, K.n] at hinit
  rw [show K.from_ints vi = K.ints 1 (vi.length : Int) vi from rfl,
    show K.from_floats vf = K.floats 2 (vf.length : Int) vf from rfl,
    dot_if_reduce (by decide) (by decide) hinit,
    dotCase_eval_eq vi vf _ _ _ _ 0 0 rfl rfl rfl h]
  rfl

/-- Witness for C6 at `[2,5] · [3,4]`. -/
theorem dot_int_float_promotes_w :
    ([2, 5] : List Int).length = ([3, 4] : List Rat).length ∧
    dot (K.from_ints [2, 5]) (K.from_floats [3, 4]) =
      .ok (K.kf (sumf ([2, 5] : List Int).length
        fun i => K.i2f (([2, 5] : List Int).getD i 0) * (([3, 4] : List Rat).getD i 0))) :=
  ⟨rfl, dot_int_float_promotes [2, 5] [3, 4] rfl⟩

/-- Claim C7: multiplying a float array of length `n > 1` by a float atom,
in either argument order, yields a float array of length `n` whose
element at index `i` is `v[i] * s`. -/
theorem times_broadcast_scalar (v : List Rat) (s : Rat) (h : 1 < v.length) :
    times (K.from_floats v) (K.kf s) =
      .ok (K.floats 2 (v.length : Int) (v.map (fun x => x * s))) ∧
    times (K.kf s) (K.from_floats v) =
      .ok (K.floats 2 (v.length : Int) (v.map (fun x => x * s))) := by
  have hwkf : wf (K.kf s) = true := wf_kf s
  have hmaxr : max (v.length : Int) (1 : Int) = (v.length : Int) := by omega
  have hmaxl : max (1 : Int) (v.length : Int) = (v.length : Int) := by omega
  constructor
  · have hinit := scalar_init_ok_of_wf (wf_from_floats v) hwkf
      (Or.inr (Or.inr (by simp [K.kf, K.n])))
      (by simp [K.from_floats, K.t])
    simp only [K.from_floats, K.kf, K.t, K.n] at hinit
    unfold times
    rw [show K.from_floats v = K.floats 2 (v.length : Int) v from rfl,
      show K.kf s = K.floats (-2) 1 [s] from rfl,
      dyadic_ff_reduce _ _ _ _ (by decide) (by decide) hinit,
      scalar_op_eval_b1 v [s] _ _ _ _ 0 rfl rfl rfl rfl h]
    simp only [Except.bind]
    have hzt : ztOf 2 (-2) (v.length : Int) 1 = 2 := by
      rw [ztOf_not_atom (by norm_num) (by norm_num) (Or.inr (by omega))]
      decide
    rw [hzt, hmaxr, show ([s] : List Rat).getD 0 0 = s from rfl,
      range_map_getD v 0 (fun x => x * s)]
  · have hinit := scalar_init_ok_of_wf hwkf (wf_from_floats v)
      (Or.inr (Or.inl (by simp [K.kf, K.n])))
      (by simp [K.kf, K.t])
    simp only [K.from_floats, K.kf, K.t, K.n] at hinit
    unfold times
    rw [show K.from_floats v = K.floats 2 (v.length : Int) v from rfl,
      show K.kf s = K.floats (-2) 1 [s] from rfl,
      dyadic_ff_reduce _ _ _ _ (by decide) (by decide) hinit,
      scalar_op_eval_a1 [s] v _ _ _ _ 0 rfl rfl rfl rfl h]
    simp only [Except.bind]
    have hzt : ztOf (-2) 2 1 (v.length : Int) = 2 := by
      rw [ztOf_not_atom (by norm_num) (by norm_num) (Or.inr (by omega))]
      decide
    rw [hzt, hmaxl, show ([s] : List Rat).getD 0 0 = s from rfl]
    have : (fun i => s * v.getD i 0) = (fun i => v.getD i 0 * s) :=
      funext fun i => mul_comm s (v.getD i 0)
    rw [this, range_map_getD v 0 (fun x => x * s)]

/-- Witness for C7 at `v = [1,2], s = 3`. -/
theorem times_broadcast_scalar_w :
    1 < ([1, 2] : List Rat).length ∧
    times (K.from_floats [1, 2]) (K.kf 3) =
      .ok (K.floats 2 (([1, 2] : List Rat).length : Int)
        (([1, 2] : List Rat).map (fun x => x * 3))) ∧
    times (K.kf 3) (K.from_floats [1, 2]) =
      .ok (K.floats 2 (([1, 2] : List Rat).length : Int)
        (([1, 2] : List Rat).map (fun x => x * 3))) :=
  ⟨by decide, (times_broadcast_scalar [1, 2] 3 (by decide)).1,
    (times_broadcast_scalar [1, 2] 3 (by decide)).2⟩

/-- Claim C9: every Value returned by `times`, `plus`, `minus` or `dot` on
well-formed operands is well-formed: payload variant matches `|type_code|`,
count equals payload length, and a negative type code implies count 1
(this is the predicate `wf`, applied recursively to list results). -/
theorem ops_preserve_wf (a b : K) (hwa : wf a = true) (hwb : wf b = true) :
    (∀ z, times a b = .ok z → wf z = true) ∧
    (∀ z, plus a b = .ok z → wf z = true) ∧
    (∀ z, minus a b = .ok z → wf z = true) ∧
    (∀ z, dot a b = .ok z → wf z = true) :=
  ⟨fun _ h => dyadic_wf _ _ _ _ hwa hwb h,
   fun _ h => dyadic_wf _ _ _ _ hwa hwb h,
   fun _ h => dyadic_wf _ _ _ _ hwa hwb h,
   fun _ h => dot_wf hwa hwb h⟩

/-- Witness for C9 at a float array times an int atom. -/
theorem ops_preserve_wf_w :
    wf (K.from_floats [1, 2]) = true ∧ wf (K.ki 3) = true ∧
    ((∀ z, times (K.from_floats [1, 2]) (K.ki 3) = .ok z → wf z = true) ∧
     (∀ z, plus (K.from_floats [1, 2]) (K.ki 3) = .ok z → wf z = true) ∧
     (∀ z, minus (K.from_floats [1, 2]) (K.ki 3) = .ok z → wf z = true) ∧
     (∀ z, dot (K.from_floats [1, 2]) (K.ki 3) = .ok z → wf z = true)) :=
  ⟨by decide, by decide,
    ops_preserve_wf (K.from_floats [1, 2]) (K.ki 3) (by decide) (by decide)⟩

/-- Claim C4 (amended): on well-formed numeric (non-list) operands, each of
`times`, `plus`, `minus` and `dot` succeeds exactly on the `goodShape`
configurations — equal counts, or one count `1` against a strictly longer
operand; in particular a singleton against an *empty* array fails (index
out of bounds), unlike what the original claim states.  On success the
element-wise operations produce `out_count = max(an, bn)`. -/
theorem ops_ok_iff_goodShape (a b : K) (hwa : wf a = true) (hwb : wf b = true)
    (hta : a.t ≠ 0) (htb : b.t ≠ 0) :
    ((times a b).isOk = true ↔ goodShape a b) ∧
    ((plus a b).isOk = true ↔ goodShape a b) ∧
    ((minus a b).isOk = true ↔ goodShape a b) ∧
    ((dot a b).isOk = true ↔ goodShape a b) ∧
    (∀ z, times a b = .ok z → z.n = max a.n b.n) ∧
    (∀ z, plus a b = .ok z → z.n = max a.n b.n) ∧
    (∀ z, minus a b = .ok z → z.n = max a.n b.n) := by
  have hdy : ∀ (op_ii : Int → Int → Int) (op_ff : Rat → Rat → Rat)
      (op_fi : Rat → Int → Rat) (op_if : Int → Rat → Rat),
      ((dyadic_scalar op_ii op_ff op_fi op_if a b).isOk = true ↔ goodShape a b) ∧
      (∀ z, dyadic_scalar op_ii op_ff op_fi op_if a b = .ok z → z.n = max a.n b.n) := by
    intro op_ii op_ff op_fi op_if
    constructor
    · constructor
      · intro hok
        by_contra hbad
        obtain ⟨e, he⟩ := dyadic_err_of_bad op_ii op_ff op_fi op_if hwa hwb hta htb hbad
        rw [he] at hok
        exact Bool.noConfusion hok
      · intro hgood
        obtain ⟨z, hz, -, -⟩ :=
          dyadic_ok_of_good op_ii op_ff op_fi op_if hwa hwb hta htb hgood
        rw [hz]
        rfl
    · intro z hz
      by_cases hgood : goodShape a b
      · obtain ⟨z', hz', hn, -⟩ :=
          dyadic_ok_of_good op_ii op_ff op_fi op_if hwa hwb hta htb hgood
        rw [hz'] at hz
        cases hz
        exact hn
      · obtain ⟨e, he⟩ := dyadic_err_of_bad op_ii op_ff op_fi op_if hwa hwb hta htb hgood
        rw [he] at hz
        exact Except.noConfusion hz
  have hdot : (dot a b).isOk = true ↔ goodShape a b := by
    constructor
    · intro hok
      by_contra hbad
      obtain ⟨e, he⟩ := dot_err_of_bad hwa hwb hta htb hbad
      rw [he] at hok
      exact Bool.noConfusion hok
    · intro hgood
      obtain ⟨z, hz, -, -⟩ := dot_ok_of_good hwa hwb hta htb hgood
      rw [hz]
      rfl
  exact ⟨(hdy _ _ _ _).1, (hdy _ _ _ _).1, (hdy _ _ _ _).1, hdot,
    (hdy _ _ _ _).2, (hdy _ _ _ _).2, (hdy _ _ _ _).2⟩

/-- Witness for C4 at a length-2 float array against a float atom. -/
theorem ops_ok_iff_goodShape_w :
    wf (K.from_floats [1, 2]) = true ∧ (K.from_floats [1, 2]).t ≠ 0 ∧
    (((times (K.from_floats [1, 2]) (K.kf 3)).isOk = true ↔
        goodShape (K.from_floats [1, 2]) (K.kf 3)) ∧
     ((plus (K.from_floats [1, 2]) (K.kf 3)).isOk = true ↔
        goodShape (K.from_floats [1, 2]) (K.kf 3)) ∧
     ((minus (K.from_floats [1, 2]) (K.kf 3)).isOk = true ↔
        goodShape (K.from_floats [1, 2]) (K.kf 3)) ∧
     ((dot (K.from_floats [1, 2]) (K.kf 3)).isOk = true ↔
        goodShape (K.from_floats [1, 2]) (K.kf 3)) ∧
     (∀ z, times (K.from_floats [1, 2]) (K.kf 3) = .ok z →
        z.n = max (K.from_floats [1, 2]).n (K.kf 3).n) ∧
     (∀ z, plus (K.from_floats [1, 2]) (K.kf 3) = .ok z →
        z.n = max (K.from_floats [1, 2]).n (K.kf 3).n) ∧
     (∀ z, minus (K.from_floats [1, 2]) (K.kf 3) = .ok z →
        z.n = max (K.from_floats [1, 2]).n (K.kf 3).n)) :=
  ⟨by decide, by decide,
    ops_ok_iff_goodShape (K.from_floats [1, 2]) (K.kf 3)
      (by decide) (by decide) (by decide) (by decide)⟩

/-- Counterexample to C4 as stated: a singleton float array times an empty
float array has `an = 1`, so the original claim says it "returns normally
with out_count = max(an, bn) = 1"; the code instead panics with an index
out of bounds while broadcasting the singleton against the empty array. -/
theorem times_singleton_empty_errs :
    wf (K.from_floats [5]) = true ∧ wf (K.from_floats []) = true ∧
    (K.from_floats [5]).n = 1 ∧
    times (K.from_floats [5]) (K.from_floats []) = .error .indexOOB := by
  refine ⟨by decide, by decide, by decide, ?_⟩
  have hinit := scalar_init_ok_of_wf (wf_from_floats [5]) (wf_from_floats [])
    (Or.inr (Or.inl (by decide))) (by simp [K.from_floats, K.t])
  simp only [K.from_floats, K.t, K.n] at hinit
  unfold times
  rw [show K.from_floats [5] = K.floats 2 (1 : Int) [(5 : Rat)] from rfl,
    show K.from_floats [] = K.floats 2 (0 : Int) [] from rfl]
  rw [dyadic_ff_reduce _ _ _ _ (by decide) (by decide) (by exact_mod_cast hinit),
    scalar_op_err_10 [(5 : Rat)] [] 1 0 _ _ rfl rfl rfl rfl rfl]
  rfl

/-- Swapping the operands of the accumulation loop commutes, provided the
two multiplication kernels are mirror images of each other. -/
theorem dotCase_swap {α β γ : Type} [Inhabited α] [Inhabited β] [AddCommMonoid γ]
    (xa : List α) (xb : List β) (an bn : Int)
    (mulab : α → β → γ) (mulba : β → α → γ)
    (hmul : ∀ x y, mulab x y = mulba y x)
    (ha : an = (xa.length : Int)) (hb : bn = (xb.length : Int))
    (hgood : an = bn ∨ (an = 1 ∧ 1 < bn) ∨ (bn = 1 ∧ 1 < an)) :
    ∀ acc, dotCase xa xb an bn (max an bn) mulab = .ok acc →
      dotCase xb xa bn an (max bn an) mulba = .ok acc := by
  intro acc hacc
  rcases hgood with h | ⟨h1, h2⟩ | ⟨h1, h2⟩
  · have hlen : xa.length = xb.length := by omega
    rw [dotCase_eval_eq xa xb an bn _ mulab default default ha hb rfl hlen] at hacc
    cases hacc
    rw [dotCase_eval_eq xb xa bn an _ mulba default default hb ha rfl hlen.symm]
    congr 1
    rw [← hlen]
    exact sumf_congr (fun i _ => (hmul _ _).symm)
  · have hxa : xa.length = 1 := by omega
    have hlt : 1 < xb.length := by omega
    rw [dotCase_eval_a1 xa xb an bn _ mulab default default h1 hxa hb rfl hlt] at hacc
    cases hacc
    rw [dotCase_eval_b1 xb xa bn an _ mulba default default h1 hxa hb rfl hlt]
    congr 1
    exact sumf_congr (fun i _ => (hmul _ _).symm)
  · have hxb : xb.length = 1 := by omega
    have hlt : 1 < xa.length := by omega
    rw [dotCase_eval_b1 xa xb an bn _ mulab default default h1 hxb ha rfl hlt] at hacc
    cases hacc
    rw [dotCase_eval_a1 xb xa bn an _ mulba default default h1 hxb ha rfl hlt]
    congr 1
    exact sumf_congr (fun i _ => (hmul _ _).symm)

/-- Claim C8: `dot` is commutative on all well-formed numeric (non-list)
pairs on which it is defined, including the mixed integer/float and the
singleton-broadcast cases: any successful `dot(a,b)` result is also the
result of `dot(b,a)`. -/
theorem dot_comm_ok (a b : K) (hwa : wf a = true) (hwb : wf b = true)
    (hta : a.t ≠ 0) (htb : b.t ≠ 0) (z : K) (h : dot a b = .ok z) :
    dot b a = .ok z := by
  by_cases hgood : goodShape a b
  · have hpass : a.n = b.n ∨ a.n = 1 ∨ b.n = 1 := by
      rcases hgood with hh | ⟨hh, -⟩ | ⟨hh, -⟩ <;> tauto
    have hpass' : b.n = a.n ∨ b.n = 1 ∨ a.n = 1 := by tauto
    have hinit := scalar_init_ok_of_wf hwa hwb hpass (fun hh => absurd hh.1 hta)
    have hinit' := scalar_init_ok_of_wf hwb hwa hpass' (fun hh => absurd hh.1 htb)
    unfold goodShape at hgood
    cases a with
    | klist t n v => exact absurd (wf_klist_iff.1 hwa).1 hta
    | ints ta na va =>
      obtain ⟨hto, hna, -⟩ := wf_ints_iff.1 hwa
      have h1a : |ta| = 1 := abs_one_of hto
      cases b with
      | klist t n v => exact absurd (wf_klist_iff.1 hwb).1 htb
      | ints tb nb vb =>
        obtain ⟨htob, hnb, -⟩ := wf_ints_iff.1 hwb
        have h1b : |tb| = 1 := abs_one_of htob
        simp only [K.t, K.n] at hinit hinit' hgood
        rw [dot_ii_reduce h1a h1b hinit] at h
        cases hc : dotCase va vb na nb (max na nb) (fun x y => x * y) with
        | error e => rw [hc] at h; exact Except.noConfusion h
        | ok acc =>
          rw [hc] at h
          simp only [Except.bind] at h
          rw [dot_ii_reduce h1b h1a hinit',
            dotCase_swap va vb na nb (fun x y => x * y) (fun x y => x * y)
              (fun x y => mul_comm x y) hna hnb hgood acc hc]
          exact h
      | floats tb nb vb =>
        obtain ⟨htob, hnb, -⟩ := wf_floats_iff.1 hwb
        have h2b : |tb| = 2 := abs_two_of htob
        simp only [K.t, K.n] at hinit hinit' hgood
        rw [dot_if_reduce h1a h2b hinit] at h
        cases hc : dotCase va vb na nb (max na nb) (fun x y => K.i2f x * y) with
        | error e => rw [hc] at h; exact Except.noConfusion h
        | ok acc =>
          rw [hc] at h
          simp only [Except.bind] at h
          rw [dot_fi_reduce h2b h1a hinit',
            dotCase_swap va vb na nb (fun x y => K.i2f x * y) (fun x y => x * K.i2f y)
              (fun x y => mul_comm (K.i2f x) y) hna hnb hgood acc hc]
          exact h
    | floats ta na va =>
      obtain ⟨hto, hna, -⟩ := wf_floats_iff.1 hwa
      have h2a : |ta| = 2 := abs_two_of hto
      cases b with
      | klist t n v => exact absurd (wf_klist_iff.1 hwb).1 htb
      | ints tb nb vb =>
        obtain ⟨htob, hnb, -⟩ := wf_ints_iff.1 hwb
        have h1b : |tb| = 1 := abs_one_of htob
        simp only [K.t, K.n] at hinit hinit' hgood
        rw [dot_fi_reduce h2a h1b hinit] at h
        cases hc : dotCase va vb na nb (max na nb) (fun x y => x * K.i2f y) with
        | error e => rw [hc] at h; exact Except.noConfusion h
        | ok acc =>
          rw [hc] at h
          simp only [Except.bind] at h
          rw [dot_if_reduce h1b h2a hinit',
            dotCase_swap va vb na nb (fun x y => x * K.i2f y) (fun x y => K.i2f x * y)
              (fun x y => mul_comm x (K.i2f y)) hna hnb hgood acc hc]
          exact h
      | floats tb nb vb =>
        obtain ⟨htob, hnb, -⟩ := wf_floats_iff.1 hwb
        have h2b : |tb| = 2 := abs_two_of htob
        simp only [K.t, K.n] at hinit hinit' hgood
        rw [dot_ff_reduce h2a h2b hinit] at h
        cases hc : dotCase va vb na nb (max na nb) (fun x y => x * y) with
        | error e => rw [hc] at h; exact Except.noConfusion h
        | ok acc =>
          rw [hc] at h
          simp only [Except.bind] at h
          rw [dot_ff_reduce h2b h2a hinit',
            dotCase_swap va vb na nb (fun x y => x * y) (fun x y => x * y)
              (fun x y => mul_comm x y) hna hnb hgood acc hc]
          exact h
  · obtain ⟨e, he⟩ := dot_err_of_bad hwa hwb hta htb hgood
    rw [he] at h
    exact Except.noConfusion h

/-- Witness for C8 at an int array against an int atom (broadcast case). -/
theorem dot_comm_ok_w :
    wf (K.from_ints [1, 2]) = true ∧
    dot (K.from_ints [1, 2]) (K.ki 3) = .ok (K.ki 9) ∧
    dot (K.ki 3) (K.from_ints [1, 2]) = .ok (K.ki 9) :=
  ⟨by decide, rfl,
    dot_comm_ok (K.from_ints [1, 2]) (K.ki 3) (by decide) (by decide)
      (by decide) (by decide) (K.ki 9) rfl⟩

/-- Claim C3 (code bug): with a list operand, `times(a,b)` produces a
general list — here `([1]) * 2 = ([2])`, whose only flat numeric leaf is
`2` — yet `dot` panics with "dot: cannot sum general list" instead of
returning that sum: the `Ints`/`Floats` summing arms of the list fallback
are unreachable, because the product of a list operand always carries a
`List` payload. -/
theorem dot_list_fallback_always_errs :
    times (K.from_list [K.ki 1]) (K.ki 2) = .ok (K.from_list [K.ki 2]) ∧
    dot (K.from_list [K.ki 1]) (K.ki 2) = .error .sumList := by
  have hiinner : dyadic_scalar (fun x y => x * y) (fun x y => x * y)
      (fun x y => x * K.i2f y) (fun x y => K.i2f x * y) (K.ki 1) (K.ki 2) =
      .ok (K.ki 2) := by
    unfold dyadic_scalar
    rfl
  have hmap : dyadicMapLeft (fun x y => x * y) (fun x y => x * y)
      (fun x y => x * K.i2f y) (fun x y => K.i2f x * y) [K.ki 1] (K.ki 2) =
      .ok [K.ki 2] := by
    unfold dyadicMapLeft
    rw [hiinner]
    simp only [ok_bind]
    rw [show dyadicMapLeft (fun x y => x * y) (fun x y => x * y)
      (fun x y => x * K.i2f y) (fun x y => K.i2f x * y) ([] : List K) (K.ki 2) =
      .ok [] from by unfold dyadicMapLeft; rfl]
    rfl
  have htimes : times (K.from_list [K.ki 1]) (K.ki 2) = .ok (K.from_list [K.ki 2]) := by
    unfold times dyadic_scalar
    rw [show scalar_init (K.from_list [K.ki 1]) (K.ki 2) =
      .ok ⟨0, 1, -1, 1, 0, 1⟩ from rfl]
    simp only [ok_bind]
    rw [if_neg (by decide), if_neg (by decide), if_neg (by decide), if_neg (by decide),
      if_pos (by decide)]
    rw [show dyadic_list (fun x y => x * y) (fun x y => x * y)
        (fun x y => x * K.i2f y) (fun x y => K.i2f x * y)
        (K.from_list [K.ki 1]) (K.ki 2) ⟨0, 1, -1, 1, 0, 1⟩ =
      (dyadicMapLeft (fun x y => x * y) (fun x y => x * y)
        (fun x y => x * K.i2f y) (fun x y => K.i2f x * y) [K.ki 1] (K.ki 2)).bind
        (fun zs => .ok (K.from_list zs)) from by unfold dyadic_list; rfl]
    rw [hmap]
    rfl
  refine ⟨htimes, ?_⟩
  unfold dot
  rw [show scalar_init (K.from_list [K.ki 1]) (K.ki 2) =
    .ok ⟨0, 1, -1, 1, 0, 1⟩ from rfl]
  simp only [ok_bind]
  rw [if_neg (by decide), if_neg (by decide), if_neg (by decide), if_neg (by decide),
    if_pos (by decide)]
  rw [htimes]
  rfl

/-! ### Swarm lemmas -/

theorem toQR_isSome (q : K) (p : Piece) : (toQR q p).isSome = clearsFloor q p := by
  unfold toQR clearsFloor
  cases pieceScore q p with
  | ok s =>
    by_cases hlt : relevanceFloor < s <;> simp [hlt]
  | error e => rfl

theorem toQR_some_score {q : K} {p : Piece} {r : QueryResult}
    (h : toQR q p = some r) : relevanceFloor < r.score := by
  unfold toQR at h
  cases hs : pieceScore q p with
  | ok s =>
    rw [hs] at h
    simp only at h
    split_ifs at h with hlt
    · cases h
      exact hlt
  | error e =>
    rw [hs] at h
    exact Option.noConfusion h

theorem length_filterMap_countP {α β : Type} (f : α → Option β) :
    ∀ l : List α, (l.filterMap f).length = l.countP (fun x => (f x).isSome) := by
  intro l
  induction l with
  | nil => rfl
  | cons x xs ih =>
    cases hf : f x with
    | none => simp [List.filterMap_cons, hf, List.countP_cons, ih]
    | some y => simp [List.filterMap_cons, hf, List.countP_cons, ih]

theorem seederScan_ok_inv (q : K) :
    ∀ (shard : List Piece) (out : List QueryResult),
      seederScan q shard = .ok out → out = shard.filterMap (toQR q) := by
  intro shard
  induction shard with
  | nil =>
    intro out h
    unfold seederScan at h
    cases h
    rfl
  | cons p rest ih =>
    intro out h
    unfold seederScan at h
    obtain ⟨d, hd, h2⟩ := bind_ok_inv h
    obtain ⟨score, hscore, h3⟩ := bind_ok_inv h2
    obtain ⟨tail, htail, h4⟩ := bind_ok_inv h3
    simp only [Except.ok.injEq] at h4
    subst h4
    have hps : pieceScore q p = .ok score := by
      unfold pieceScore
      rw [hd]
      simpa using hscore
    have htq : toQR q p =
        if relevanceFloor < score then some (queryResultOf p score) else none := by
      unfold toQR
      rw [hps]
    rw [List.filterMap_cons, htq, ih tail htail]
    by_cases hlt : relevanceFloor < score <;> simp [hlt]

theorem mapME_ok_eq_map {α β : Type} {f : α → Except KErr β} {g : α → β} :
    ∀ {l : List α} {out : List β}, mapME f l = .ok out →
      (∀ x ∈ l, ∀ y, f x = .ok y → y = g x) → out = l.map g := by
  intro l
  induction l with
  | nil => intro out h _; unfold mapME at h; cases h; rfl
  | cons x xs ih =>
    intro out h hg
    unfold mapME at h
    obtain ⟨y, hy, h2⟩ := bind_ok_inv h
    obtain ⟨ys, hys, h3⟩ := bind_ok_inv h2
    simp only [Except.ok.injEq] at h3
    subst h3
    rw [List.map_cons, hg x (by simp) y hy,
      ih hys (fun u hu w hw => hg u (by simp [hu]) w hw)]

theorem shardOf_eq_drop_take (unique : List Piece) (N i : Nat) :
    shardOf unique N i =
      (unique.drop (i * ((unique.length + N - 1) / N))).take
        ((unique.length + N - 1) / N) := by
  unfold shardOf
  dsimp only
  split_ifs with hlt
  · rcases le_total (i * ((unique.length + N - 1) / N) + (unique.length + N - 1) / N)
        unique.length with hc | hc
    · rw [min_eq_left hc]
      congr 1
      exact Nat.add_sub_cancel_left _ _
    · rw [min_eq_right hc]
      rw [List.take_of_length_le (by rw [List.length_drop]),
        List.take_of_length_le (by
          rw [List.length_drop]
          exact Nat.sub_le_iff_le_add.2 (by rw [Nat.add_comm]; exact hc))]
  · rw [List.drop_eq_nil_of_le (Nat.le_of_not_lt hlt), List.take_nil]

theorem flatten_chunks {α : Type} :
    ∀ (N : Nat) (l : List α) (c : Nat), l.length ≤ N * c →
      ((List.range N).map (fun i => (l.drop (i * c)).take c)).flatten = l := by
  intro N
  induction N with
  | zero =>
    intro l c h
    obtain rfl : l = [] := List.length_eq_zero.1 (by omega)
    rfl
  | succ n ih =>
    intro l c h
    rw [List.range_succ_eq_map, List.map_cons, List.flatten_cons, Nat.zero_mul,
      List.drop_zero, List.map_map]
    have hcomp : ((fun i => (l.drop (i * c)).take c) ∘ Nat.succ) =
        fun i => ((l.drop c).drop (i * c)).take c := by
      funext i
      simp only [Function.comp]
      rw [List.drop_drop]
      congr 2
      rw [Nat.succ_mul]
      ring
    rw [hcomp, ih (l.drop c) c (by
      rw [List.length_drop]
      have hmul : (n + 1) * c = n * c + c := by ring
      omega)]
    exact List.take_append_drop c l

theorem ceil_div_bound (U N : Nat) (hN : 0 < N) : U ≤ N * ((U + N - 1) / N) := by
  have h1 := Nat.div_add_mod (U + N - 1) N
  have h2 := Nat.mod_lt (U + N - 1) hN
  omega

theorem shards_flatten (unique : List Piece) (N : Nat) (hN : 0 < N) :
    ((List.range N).map (shardOf unique N)).flatten = unique := by
  have : (List.range N).map (shardOf unique N) =
      (List.range N).map (fun i =>
        (unique.drop (i * ((unique.length + N - 1) / N))).take
          ((unique.length + N - 1) / N)) :=
    List.map_congr_left (fun i _ => shardOf_eq_drop_take unique N i)
  rw [this, flatten_chunks N unique _ (ceil_div_bound unique.length N hN)]

theorem dedup_pieces_spec :
    ∀ (l : List Piece) (seen : List Nat),
      ((dedupPieces l seen).map Piece.hash).Nodup ∧
      ∀ p ∈ dedupPieces l seen, p.hash ∉ seen := by
  intro l
  induction l with
  | nil => intro seen; exact ⟨List.nodup_nil, by simp [dedupPieces]⟩
  | cons p rest ih =>
    intro seen
    unfold dedupPieces
    split_ifs with hmem
    · exact ih seen
    · obtain ⟨hnd, hns⟩ := ih (p.hash :: seen)
      refine ⟨?_, ?_⟩
      · rw [List.map_cons, List.nodup_cons]
        exact ⟨fun hc => by
          obtain ⟨p', hp', hh⟩ := List.mem_map.1 hc
          exact hns p' hp' (by simp [hh]), hnd⟩
      · intro p' hp'
        rcases List.mem_cons.1 hp' with rfl | hp'
        · exact hmem
        · intro hc
          exact hns p' hp' (by simp [hc])

theorem swarmQuery_ok_inv {N : Nat} {pieces : List Piece} {q : K} {top_k : Nat}
    {res : List QueryResult} (h : swarmQuery N pieces q top_k = .ok res) :
    ∃ batches, mapME (fun i => seederScan q (shardOf (uniqueOf pieces) N i))
        (List.range N) = .ok batches ∧
      res = (List.insertionSort scoreDesc batches.flatten).take top_k ∧
      batches = (List.range N).map (fun i => (shardOf (uniqueOf pieces) N i).filterMap (toQR q)) := by
  unfold swarmQuery at h
  obtain ⟨batches, hb, h2⟩ := bind_ok_inv h
  simp only [Except.ok.injEq] at h2
  exact ⟨batches, hb, h2.symm,
    mapME_ok_eq_map hb (fun i _ out hout => seederScan_ok_inv q _ out hout)⟩

theorem swarmQuery_flatten (N : Nat) (pieces : List Piece) (q : K) (hN : 0 < N) :
    ((List.range N).map
      (fun i => (shardOf (uniqueOf pieces) N i).filterMap (toQR q))).flatten =
      (uniqueOf pieces).filterMap (toQR q) := by
  have : (List.range N).map
      (fun i => (shardOf (uniqueOf pieces) N i).filterMap (toQR q)) =
      ((List.range N).map (shardOf (uniqueOf pieces) N)).map (List.filterMap (toQR q)) := by
    rw [List.map_map]
    rfl
  rw [this, ← List.filterMap_flatten, shards_flatten (uniqueOf pieces) N hN]

/-! ### Zero-embedding pieces: scores against an all-zero float embedding -/

theorem foldlME_ok_const {γ α : Type} (step : γ → α → Except KErr γ)
    (hstep : ∀ acc x, step acc x = .ok acc ∨ ∃ e, step acc x = .error e) :
    ∀ (l : List α) (init acc : γ), foldlME step init l = .ok acc → acc = init := by
  intro l
  induction l with
  | nil =>
    intro init acc h
    simp only [foldlME] at h
    exact (Except.ok.inj h).symm
  | cons x xs ih =>
    intro init acc h
    simp only [foldlME] at h
    rcases hstep init x with hx | ⟨e, hx⟩
    · rw [hx] at h
      simp only [ok_bind] at h
      exact ih init acc h
    · rw [hx] at h
      simp only [error_bind] at h
      exact Except.noConfusion h

theorem dotCase_zero {α β γ : Type} [AddCommMonoid γ] {xa : List α} {xb : List β}
    {an bn zn : Int} {mul : α → β → γ}
    (hz : ∀ (x : α), ∀ y ∈ xb, mul x y = 0) {acc : γ}
    (h : dotCase xa xb an bn zn mul = .ok acc) : acc = 0 := by
  unfold dotCase at h
  dsimp only at h
  split_ifs at h with h1 h2
  · refine foldlME_ok_const _ ?_ _ _ _ h
    intro a i
    dsimp only
    cases hx : idx xa i with
    | error e => exact Or.inr ⟨e, rfl⟩
    | ok x =>
      simp only [ok_bind]
      cases hy : idx xb i with
      | error e => exact Or.inr ⟨e, rfl⟩
      | ok y =>
        refine Or.inl ?_
        simp only [ok_bind]
        rw [hz x y (idx_ok_mem hy), add_zero]
  · obtain ⟨x0, hx0, h2'⟩ := bind_ok_inv h
    refine foldlME_ok_const _ ?_ _ _ _ h2'
    intro a i
    dsimp only
    cases hy : idx xb i with
    | error e => exact Or.inr ⟨e, rfl⟩
    | ok y =>
      refine Or.inl ?_
      simp only [ok_bind]
      rw [hz x0 y (idx_ok_mem hy), add_zero]
  · obtain ⟨y0, hy0, h2'⟩ := bind_ok_inv h
    have hy0m := idx_ok_mem hy0
    refine foldlME_ok_const _ ?_ _ _ _ h2'
    intro a i
    dsimp only
    cases hx : idx xa i with
    | error e => exact Or.inr ⟨e, rfl⟩
    | ok x =>
      refine Or.inl ?_
      simp only [ok_bind]
      rw [hz x y0 hy0m, add_zero]

theorem dot_zero_embedding {q : K} {v : List Rat} {z : K}
    (hv : ∀ x ∈ v, x = 0) (h : dot q (K.from_floats v) = .ok z) :
    z = K.kf 0 := by
  by_cases hq0 : q.t = 0
  · obtain ⟨e, he⟩ := dot_list_err (Or.inl hq0)
    rw [he] at h
    exact Except.noConfusion h
  · unfold dot at h
    obtain ⟨s, hs, h2⟩ := bind_ok_inv h
    obtain ⟨-, -, -, -, hseq⟩ := scalar_init_ok_iff.1 hs
    subst hseq
    dsimp only [K.from_floats, K.t, K.n] at h2
    split_ifs at h2 with hc1 hc2 hc3 hc4 hc5
    · obtain ⟨af, haf, h3⟩ := bind_ok_inv h2
      obtain ⟨bf, hbf, h4⟩ := bind_ok_inv h3
      obtain ⟨acc, hacc, h5⟩ := bind_ok_inv h4
      have hbv : Except.ok v = Except.ok bf := hbf
      cases Except.ok.inj hbv
      have hz0 := dotCase_zero (fun x y hy => by rw [hv y hy, mul_zero]) hacc
      subst hz0
      exact (Except.ok.inj h5).symm
    · exact absurd hc2.2 (by norm_num)
    · obtain ⟨ai, hai, h3⟩ := bind_ok_inv h2
      obtain ⟨bf, hbf, h4⟩ := bind_ok_inv h3
      obtain ⟨acc, hacc, h5⟩ := bind_ok_inv h4
      have hbv : Except.ok v = Except.ok bf := hbf
      cases Except.ok.inj hbv
      have hz0 := dotCase_zero (fun x y hy => by rw [hv y hy, mul_zero]) hacc
      subst hz0
      exact (Except.ok.inj h5).symm
    · exact absurd hc4.2 (by norm_num)
    · rcases hc5 with h5a | h5a
      · exact absurd (abs_eq_zero.mp h5a) hq0
      · norm_num at h5a

theorem clearsFloor_zero {p : Piece} {v : List Rat}
    (hemb : p.embedding = K.from_floats v) (hv : ∀ x ∈ v, x = 0) (q : K) :
    clearsFloor q p = false := by
  unfold clearsFloor
  cases hps : pieceScore q p with
  | error e => rfl
  | ok s =>
    have hs0 : s = 0 := by
      unfold pieceScore at hps
      rw [hemb] at hps
      obtain ⟨d, hd, hsc⟩ := bind_ok_inv hps
      have hz := dot_zero_embedding hv hd
      subst hz
      have hsc' : Except.ok (0 : Rat) = Except.ok s := hsc
      exact (Except.ok.inj hsc').symm
    subst hs0
    decide

/-- For a piece whose float-array embedding has a nonzero entry, the query
`v * (1/S)` (with `S` the sum of squares) scores exactly `1`, which clears
the `0.001` floor: some query retrieves the piece. -/
theorem clearsFloor_exists_query {p : Piece} {v : List Rat}
    (hemb : p.embedding = K.from_floats v) {x : Rat} (hxv : x ∈ v) (hxne : x ≠ 0) :
    ∃ q, clearsFloor q p = true := by
  set S := sumf v.length (fun i => v.getD i 0 * v.getD i 0) with hSdef
  have hS0 : 0 < S := by
    obtain ⟨j, hj, hxj⟩ := List.mem_iff_getElem.1 hxv
    refine sumf_pos (fun i _ => mul_self_nonneg _) hj ?_
    rw [List.getD_eq_getElem v 0 hj, hxj]
    exact mul_self_pos.2 hxne
  have hlen : (v.map (fun y => y * S⁻¹)).length = v.length := by simp
  have hinit : scalar_init
      (K.floats 2 (((v.map (fun y => y * S⁻¹)).length : Nat) : Int) (v.map (fun y => y * S⁻¹)))
      (K.floats 2 ((v.length : Nat) : Int) v) =
      .ok ⟨2, (((v.map (fun y => y * S⁻¹)).length : Nat) : Int), 2, ((v.length : Nat) : Int),
        ztOf 2 2 (((v.map (fun y => y * S⁻¹)).length : Nat) : Int) ((v.length : Nat) : Int),
        max (((v.map (fun y => y * S⁻¹)).length : Nat) : Int) ((v.length : Nat) : Int)⟩ := by
    refine scalar_init_eval ?_ ?_ ?_ ?_
    · rintro ⟨hlt, -, -⟩
      simp [K.t] at hlt
    · rintro ⟨hz, -, -⟩
      simp [K.t] at hz
    · rintro ⟨hne, -, -⟩
      exact hne (by simp [K.n])
    · exact ztOf_abs_le (by norm_num [K.t]) (by norm_num [K.t])
  have hdot : dot
      (K.floats 2 (((v.map (fun y => y * S⁻¹)).length : Nat) : Int) (v.map (fun y => y * S⁻¹)))
      (K.floats 2 ((v.length : Nat) : Int) v) = .ok (K.kf 1) := by
    rw [dot_ff_reduce (by norm_num) (by norm_num) hinit]
    rw [dotCase_eval_eq (v.map (fun y => y * S⁻¹)) v _ _ _ _ 0 0 rfl rfl rfl hlen]
    have hsum : (sumf (v.map (fun y => y * S⁻¹)).length
        fun i => (v.map (fun y => y * S⁻¹)).getD i 0 * v.getD i 0) = 1 := by
      rw [hlen]
      rw [show (sumf v.length fun i => (v.map (fun y => y * S⁻¹)).getD i 0 * v.getD i 0)
          = sumf v.length fun i => v.getD i 0 * v.getD i 0 * S⁻¹ from
        sumf_congr (fun i hi => by
          rw [List.getD_eq_getElem (v.map (fun y => y * S⁻¹)) 0 (by rw [hlen]; exact hi),
            List.getElem_map, List.getD_eq_getElem v 0 hi]
          ring)]
      rw [sumf_mul_right v.length (fun i => v.getD i 0 * v.getD i 0) S⁻¹, ← hSdef,
        mul_inv_cancel₀ (ne_of_gt hS0)]
    rw [hsum]
    rfl
  refine ⟨K.floats 2 (((v.map (fun y => y * S⁻¹)).length : Nat) : Int)
    (v.map (fun y => y * S⁻¹)), ?_⟩
  have hps : pieceScore
      (K.floats 2 (((v.map (fun y => y * S⁻¹)).length : Nat) : Int) (v.map (fun y => y * S⁻¹)))
      p = .ok 1 := by
    unfold pieceScore
    rw [hemb, show K.from_floats v = K.floats 2 ((v.length : Nat) : Int) v from rfl, hdot]
    rfl
  unfold clearsFloor
  rw [hps]
  decide

theorem shardOf_subset (unique : List Piece) (N i : Nat) :
    ∀ p ∈ shardOf unique N i, p ∈ unique := by
  intro p hp
  rw [shardOf_eq_drop_take] at hp
  exact List.mem_of_mem_drop (List.mem_of_mem_take hp)

/-- `dot` on two float arrays of equal length always succeeds, with the
accumulated pairwise-product sum. -/
theorem dot_dim_matched (u w : List Rat) (hlen : u.length = w.length) :
    dot (K.floats 2 ((u.length : Nat) : Int) u) (K.floats 2 ((w.length : Nat) : Int) w) =
      .ok (K.kf (sumf u.length fun i => u.getD i 0 * w.getD i 0)) := by
  have hinit : scalar_init (K.floats 2 ((u.length : Nat) : Int) u)
      (K.floats 2 ((w.length : Nat) : Int) w) =
      .ok ⟨2, ((u.length : Nat) : Int), 2, ((w.length : Nat) : Int),
        ztOf 2 2 ((u.length : Nat) : Int) ((w.length : Nat) : Int),
        max ((u.length : Nat) : Int) ((w.length : Nat) : Int)⟩ := by
    refine scalar_init_eval ?_ ?_ ?_ ?_
    · rintro ⟨hlt, -, -⟩
      simp [K.t] at hlt
    · rintro ⟨hz, -, -⟩
      simp [K.t] at hz
    · rintro ⟨hne, -, -⟩
      exact hne (by simp [K.n, hlen])
    · exact ztOf_abs_le (by norm_num [K.t]) (by norm_num [K.t])
  rw [dot_ff_reduce (by norm_num) (by norm_num) hinit,
    dotCase_eval_eq u w _ _ _ _ 0 0 rfl rfl rfl hlen]
  rfl

/-- Scoring a piece whose embedding is a float array of the same dimension
as a float-array query never panics. -/
theorem pieceScore_dim_matched {p : Piece} {w : List Rat}
    (hemb : p.embedding = K.from_floats w) (u : List Rat) (hlen : u.length = w.length) :
    pieceScore (K.floats 2 ((u.length : Nat) : Int) u) p =
      .ok (sumf u.length fun i => u.getD i 0 * w.getD i 0) := by
  unfold pieceScore
  rw [hemb, show K.from_floats w = K.floats 2 ((w.length : Nat) : Int) w from rfl,
    dot_dim_matched u w hlen]
  rfl

/-- A worker's scan returns (with the per-piece results) as soon as every
piece of its shard scores without panicking. -/
theorem seederScan_total (q : K) :
    ∀ (shard : List Piece), (∀ p ∈ shard, ∃ s, pieceScore q p = .ok s) →
      seederScan q shard = .ok (shard.filterMap (toQR q)) := by
  intro shard
  induction shard with
  | nil => intro _; rfl
  | cons p rest ih =>
    intro hall
    obtain ⟨s, hs⟩ := hall p (by simp)
    have hs2 := hs
    unfold pieceScore at hs2
    obtain ⟨d, hd, hsc⟩ := bind_ok_inv hs2
    have hsc' : scoreOf d = .ok s := hsc
    unfold seederScan
    rw [hd]
    simp only [ok_bind]
    rw [hsc']
    simp only [ok_bind]
    rw [ih (fun p' hp' => hall p' (by simp [hp']))]
    simp only [ok_bind]
    have htq : toQR q p = if relevanceFloor < s then some (queryResultOf p s) else none := by
      unfold toQR
      rw [hs]
    rw [List.filterMap_cons, htq]
    by_cases hlt : relevanceFloor < s <;> simp [hlt]

/-- The dot product of the scaled query `v * c` against `v` is the sum of
squares of `v` times `c`. -/
theorem map_scaled_dot_sum (v : List Rat) (c : Rat) :
    (sumf (v.map (fun y => y * c)).length
      fun i => (v.map (fun y => y * c)).getD i 0 * v.getD i 0)
      = (sumf v.length fun i => v.getD i 0 * v.getD i 0) * c := by
  rw [List.length_map]
  rw [show (sumf v.length fun i => (v.map (fun y => y * c)).getD i 0 * v.getD i 0)
      = sumf v.length fun i => v.getD i 0 * v.getD i 0 * c from
    sumf_congr (fun i hi => by
      rw [List.getD_eq_getElem (v.map (fun y => y * c)) 0 (by rw [List.length_map]; exact hi),
        List.getElem_map, List.getD_eq_getElem v 0 hi]
      ring)]
  rw [sumf_mul_right v.length (fun i => v.getD i 0 * v.getD i 0) c]

/-- When every deduplicated piece carries a float-array embedding of one
common dimension, a unique piece with a nonzero embedding entry really is
returned by some query: the query `v * (1/S)` (with `S` its sum of squares)
makes every worker scan succeed, scores the piece exactly `1 > 0.001`, and
with `top_k = U` the truncation keeps every surviving result. -/
theorem nonzero_piece_returned {N : Nat} {pieces : List Piece} (hN : 0 < N)
    {p : Piece} (hp : p ∈ uniqueOf pieces) {v : List Rat}
    (hemb : p.embedding = K.from_floats v)
    (hdim : ∀ p' ∈ uniqueOf pieces, ∃ w : List Rat,
      p'.embedding = K.from_floats w ∧ w.length = v.length)
    {x : Rat} (hxv : x ∈ v) (hxne : x ≠ 0) :
    ∃ (q : K) (res : List QueryResult) (r : QueryResult),
      swarmQuery N pieces q (uniqueOf pieces).length = .ok res ∧ r ∈ res ∧
        toQR q p = some r := by
  set S := sumf v.length (fun i => v.getD i 0 * v.getD i 0) with hSdef
  have hS0 : 0 < S := by
    obtain ⟨j, hj, hxj⟩ := List.mem_iff_getElem.1 hxv
    refine sumf_pos (fun i _ => mul_self_nonneg _) hj ?_
    rw [List.getD_eq_getElem v 0 hj, hxj]
    exact mul_self_pos.2 hxne
  have hulen : (v.map (fun y => y * S⁻¹)).length = v.length := by simp
  have hmap : mapME (fun i => seederScan
        (K.floats 2 (((v.map (fun y => y * S⁻¹)).length : Nat) : Int)
          (v.map (fun y => y * S⁻¹)))
        (shardOf (uniqueOf pieces) N i)) (List.range N)
      = .ok ((List.range N).map (fun i => (shardOf (uniqueOf pieces) N i).filterMap
        (toQR (K.floats 2 (((v.map (fun y => y * S⁻¹)).length : Nat) : Int)
          (v.map (fun y => y * S⁻¹)))))) := by
    refine mapME_eq_ok _ _ _ (fun i _ => seederScan_total _ _ (fun p' hp' => ?_))
    obtain ⟨w, hw, hwl⟩ := hdim p' (shardOf_subset _ _ _ p' hp')
    exact ⟨_, pieceScore_dim_matched hw (v.map (fun y => y * S⁻¹)) (by rw [hulen, hwl])⟩
  have hok : swarmQuery N pieces
      (K.floats 2 (((v.map (fun y => y * S⁻¹)).length : Nat) : Int) (v.map (fun y => y * S⁻¹)))
      (uniqueOf pieces).length = .ok
      ((List.insertionSort scoreDesc ((uniqueOf pieces).filterMap
        (toQR (K.floats 2 (((v.map (fun y => y * S⁻¹)).length : Nat) : Int)
          (v.map (fun y => y * S⁻¹)))))).take (uniqueOf pieces).length) := by
    unfold swarmQuery
    dsimp only
    rw [hmap]
    simp only [ok_bind]
    rw [swarmQuery_flatten N pieces _ hN]
  have hscore : pieceScore
      (K.floats 2 (((v.map (fun y => y * S⁻¹)).length : Nat) : Int) (v.map (fun y => y * S⁻¹)))
      p = .ok 1 := by
    rw [pieceScore_dim_matched hemb (v.map (fun y => y * S⁻¹)) hulen,
      map_scaled_dot_sum v S⁻¹, ← hSdef, mul_inv_cancel₀ (ne_of_gt hS0)]
  have htq : toQR
      (K.floats 2 (((v.map (fun y => y * S⁻¹)).length : Nat) : Int) (v.map (fun y => y * S⁻¹)))
      p = some (queryResultOf p 1) := by
    unfold toQR
    rw [hscore]
    show (if relevanceFloor < (1 : Rat) then some (queryResultOf p 1) else none)
      = some (queryResultOf p 1)
    rw [if_pos (by decide)]
  refine ⟨_, _, queryResultOf p 1, hok, ?_, htq⟩
  rw [List.take_of_length_le (by
    rw [(List.perm_insertionSort scoreDesc _).length_eq]
    exact List.length_filterMap_le _ _)]
  exact (List.perm_insertionSort scoreDesc _).mem_iff.2
    (List.mem_filterMap.2 ⟨p, hp, htq⟩)

/-- **C2**: for every swarm (a positive worker count `N` and any piece
collection), query embedding and `top_k`, a query that returns does so with
results sorted by non-increasing score, every returned score strictly above
the `0.001` relevance floor, and exactly
`min top_k (number of deduplicated pieces clearing the floor)` results. -/
theorem query_sorted_floor_topk (N : Nat) (pieces : List Piece) (q : K)
    (top_k : Nat) (res : List QueryResult) (hN : 0 < N)
    (h : swarmQuery N pieces q top_k = .ok res) :
    List.Sorted scoreDesc res ∧ (∀ r ∈ res, relevanceFloor < r.score) ∧
      res.length = min top_k ((uniqueOf pieces).countP (clearsFloor q)) := by
  obtain ⟨batches, hb, hres, hbeq⟩ := swarmQuery_ok_inv h
  subst hbeq
  rw [swarmQuery_flatten N pieces q hN] at hres
  subst hres
  refine ⟨?_, ?_, ?_⟩
  · exact List.Pairwise.sublist (List.take_sublist _ _)
      (List.sorted_insertionSort scoreDesc _)
  · intro r hr
    have hr2 : r ∈ (uniqueOf pieces).filterMap (toQR q) :=
      (List.perm_insertionSort scoreDesc _).subset (List.mem_of_mem_take hr)
    obtain ⟨p, hp, htq⟩ := List.mem_filterMap.1 hr2
    exact toQR_some_score htq
  · rw [List.length_take, (List.perm_insertionSort scoreDesc _).length_eq,
      length_filterMap_countP]
    congr 1
    exact List.countP_congr (fun p _ => by rw [toQR_isSome])

theorem query_sorted_floor_topk_w :
    (0 < 2 ∧ swarmQuery 2 [⟨7, 3, [], [], 4, K.from_ints [1]⟩] (K.from_ints [2]) 5 =
        .ok [⟨7, ((2 : Int) : Rat), [], 4, [], []⟩]) ∧
    (List.Sorted scoreDesc [(⟨7, ((2 : Int) : Rat), [], 4, [], []⟩ : QueryResult)] ∧
     (∀ r ∈ [(⟨7, ((2 : Int) : Rat), [], 4, [], []⟩ : QueryResult)],
        relevanceFloor < r.score) ∧
     ([(⟨7, ((2 : Int) : Rat), [], 4, [], []⟩ : QueryResult)].length =
       min 5 ((uniqueOf [⟨7, 3, [], [], 4, K.from_ints [1]⟩]).countP
         (clearsFloor (K.from_ints [2]))))) :=
  ⟨⟨by decide, rfl⟩,
   query_sorted_floor_topk 2 [⟨7, 3, [], [], 4, K.from_ints [1]⟩] (K.from_ints [2]) 5
     [⟨7, ((2 : Int) : Rat), [], 4, [], []⟩] (by decide) rfl⟩

/-- **C5** (corrected): for a swarm built from any piece collection with a
positive worker count, (1) the shards partition exactly the
deduplicated-by-hash, first-occurrence-order unique piece list, (2) the
unique list has pairwise-distinct hashes, (3) with `top_k = U` (the unique
count) a query's results are a permutation of the per-unique-piece results
(each unique piece contributes at most one result, so no piece appears
twice), and (4) — replacing the false "union over all queries covers every
unique piece" — when every unique piece carries a float-array embedding of
one common dimension, a unique piece is returned by some query (its result
appears in the returned, `top_k = U` result list of a query that completes)
if and only if its embedding has a nonzero entry. -/
theorem swarm_partition_unique_coverage (N : Nat) (pieces : List Piece) (hN : 0 < N) :
    ((List.range N).map (shardOf (uniqueOf pieces) N)).flatten = uniqueOf pieces ∧
    ((uniqueOf pieces).map Piece.hash).Nodup ∧
    (∀ (q : K) (res : List QueryResult),
        swarmQuery N pieces q (uniqueOf pieces).length = .ok res →
        res.Perm ((uniqueOf pieces).filterMap (toQR q))) ∧
    (∀ p ∈ uniqueOf pieces, ∀ v : List Rat, p.embedding = K.from_floats v →
        (∀ p' ∈ uniqueOf pieces, ∃ w : List Rat,
          p'.embedding = K.from_floats w ∧ w.length = v.length) →
        ((∃ (q : K) (res : List QueryResult) (r : QueryResult),
            swarmQuery N pieces q (uniqueOf pieces).length = .ok res ∧ r ∈ res ∧
              toQR q p = some r) ↔
          ∃ x ∈ v, x ≠ 0)) := by
  refine ⟨shards_flatten (uniqueOf pieces) N hN, (dedup_pieces_spec pieces []).1, ?_, ?_⟩
  · intro q res h
    obtain ⟨batches, hb, hres, hbeq⟩ := swarmQuery_ok_inv h
    subst hbeq
    rw [swarmQuery_flatten N pieces q hN] at hres
    subst hres
    rw [List.take_of_length_le (by
      rw [(List.perm_insertionSort scoreDesc _).length_eq]
      exact List.length_filterMap_le _ _)]
    exact List.perm_insertionSort scoreDesc _
  · intro p hp v hemb hdim
    constructor
    · rintro ⟨q, res, r, -, -, htq⟩
      by_contra hall
      push_neg at hall
      have hcf := clearsFloor_zero hemb hall q
      have hsome : (toQR q p).isSome = true := by
        rw [htq]
        rfl
      rw [toQR_isSome, hcf] at hsome
      exact Bool.noConfusion hsome
    · rintro ⟨x, hxv, hxne⟩
      exact nonzero_piece_returned hN hp hemb hdim hxv hxne

theorem swarm_partition_unique_coverage_w :
    0 < 1 ∧
    (((List.range 1).map (shardOf (uniqueOf [⟨1, 10, [], [], 1, K.from_floats [1]⟩]) 1)).flatten
        = uniqueOf [⟨1, 10, [], [], 1, K.from_floats [1]⟩] ∧
     ((uniqueOf [(⟨1, 10, [], [], 1, K.from_floats [1]⟩ : Piece)]).map Piece.hash).Nodup ∧
     (∀ (q : K) (res : List QueryResult),
         swarmQuery 1 [⟨1, 10, [], [], 1, K.from_floats [1]⟩] q
           (uniqueOf [(⟨1, 10, [], [], 1, K.from_floats [1]⟩ : Piece)]).length = .ok res →
         res.Perm ((uniqueOf [(⟨1, 10, [], [], 1, K.from_floats [1]⟩ : Piece)]).filterMap
           (toQR q))) ∧
     (∀ p ∈ uniqueOf [(⟨1, 10, [], [], 1, K.from_floats [1]⟩ : Piece)],
        ∀ v : List Rat, p.embedding = K.from_floats v →
          (∀ p' ∈ uniqueOf [(⟨1, 10, [], [], 1, K.from_floats [1]⟩ : Piece)],
            ∃ w : List Rat, p'.embedding = K.from_floats w ∧ w.length = v.length) →
          ((∃ (q : K) (res : List QueryResult) (r : QueryResult),
              swarmQuery 1 [⟨1, 10, [], [], 1, K.from_floats [1]⟩] q
                (uniqueOf [(⟨1, 10, [], [], 1, K.from_floats [1]⟩ : Piece)]).length
                = .ok res ∧ r ∈ res ∧ toQR q p = some r) ↔
            ∃ x ∈ v, x ≠ 0))) :=
  ⟨by decide, swarm_partition_unique_coverage 1 [⟨1, 10, [], [], 1, K.from_floats [1]⟩]
    (by decide)⟩

/-- **C5 counterexample**: the original coverage conjunct fails — a piece
whose embedding is the all-zero float array `[0.0]` is never returned by any
query (its score is always `0`, below the floor, or the query panics), so
the union of returned pieces over all queries misses it. -/
theorem zero_piece_never_returned :
    ¬ ∃ (q : K) (res : List QueryResult) (r : QueryResult),
        swarmQuery 1 [⟨1, 10, [], [], 1, K.from_floats [0]⟩] q
          (uniqueOf [(⟨1, 10, [], [], 1, K.from_floats [0]⟩ : Piece)]).length = .ok res ∧
        r ∈ res := by
  rintro ⟨q, res, r, hok, hmem⟩
  obtain ⟨batches, hb, hres, hbeq⟩ := swarmQuery_ok_inv hok
  subst hbeq
  rw [swarmQuery_flatten _ _ q (by norm_num)] at hres
  subst hres
  have hr : r ∈ (uniqueOf [(⟨1, 10, [], [], 1, K.from_floats [0]⟩ : Piece)]).filterMap
      (toQR q) :=
    (List.perm_insertionSort scoreDesc _).subset (List.mem_of_mem_take hmem)
  obtain ⟨p, hp, htq⟩ := List.mem_filterMap.1 hr
  have hpu : uniqueOf [(⟨1, 10, [], [], 1, K.from_floats [0]⟩ : Piece)]
      = [⟨1, 10, [], [], 1, K.from_floats [0]⟩] := rfl
  rw [hpu] at hp
  have hp0 : p = ⟨1, 10, [], [], 1, K.from_floats [0]⟩ := by simpa using hp
  subst hp0
  have hcf : clearsFloor q (⟨1, 10, [], [], 1, K.from_floats [0]⟩ : Piece) = false :=
    clearsFloor_zero rfl (fun y hy => by simpa using hy) q
  have hsome : (toQR q (⟨1, 10, [], [], 1, K.from_floats [0]⟩ : Piece)).isSome = true := by
    rw [htq]
    rfl
  rw [toQR_isSome, hcf] at hsome
  exact Bool.noConfusion hsome
